import Mathlib

/-!
Verification of the `frnm` filename-normalisation utility (src/frnm.py).

Python strings are modelled as `List Char`, filesystem trees as a mutual
inductive `FSTree`/`Forest`, and the functions of `frnm.py` are translated
one by one.  Machine-level details that the program never exercises
(symlink resolution in `os.path.realpath`, stdout printing) are noted at
the definitions that elide them.
-/

namespace Frnm

/-- A Python `str` holding a basename, modelled as its list of characters. -/
abbrev Name := List Char

/-- `EXCLUDED_CHARS = re.compile(r"[^-._0-9a-zA-Z]")` (frnm.py line 17):
`isExcluded c` is true exactly when the single character `c` is matched by
the regex, i.e. when it is outside the allowed set `[-._0-9a-zA-Z]`. -/
def isExcluded (c : Char) : Bool :=
  !(c == '-' || c == '.' || c == '_' ||
    (decide ('0' ≤ c) && decide (c ≤ '9')) ||
    (decide ('a' ≤ c) && decide (c ≤ 'z')) ||
    (decide ('A' ≤ c) && decide (c ≤ 'Z')))

/-- `EXCLUDED_CHARS.sub(char, s)` for a single replacement character:
every character matched by the regex is replaced by `char`. -/
def excludedSub (char : Char) (s : Name) : Name :=
  s.map (fun c => if isExcluded c then char else c)

/-- Python `s.strip(char)` for a single-character strip set: remove every
leading and trailing occurrence of `char`. -/
def stripChar (char : Char) (s : Name) : Name :=
  ((s.dropWhile (· == char)).reverse.dropWhile (· == char)).reverse

/-- Python `s.split(char)` for a one-character separator: cut `s` at every
occurrence of `char`, keeping empty pieces (`"".split(c) == ['']`). -/
def split_on (char : Char) : Name → List Name
  | [] => [[]]
  | c :: cs =>
    if c == char then [] :: split_on char cs
    else
      match split_on char cs with
      | [] => [[c]]
      | h :: t => (c :: h) :: t

/-- Python `char.join(parts)` for a one-character joiner. -/
def join_on (char : Char) : List Name → Name
  | [] => []
  | [p] => p
  | p :: ps => p ++ char :: join_on char ps

/-- The index of the last `'.'` in a basename, if any
(`p.rfind(extsep)` in CPython's `_splitext`). -/
def lastDotIdx : Name → Option Nat
  | [] => none
  | c :: cs =>
    match lastDotIdx cs with
    | some i => some (i + 1)
    | none => if c = '.' then some 0 else none

/-- Python `os.path.splitext` restricted to a bare basename (no path
separators): split at the last `'.'`, unless every character before that
dot is itself a dot (a leading-dot "hidden" name has no extension). -/
def splitext (s : Name) : Name × Name :=
  match lastDotIdx s with
  | none => (s, [])
  | some i => if (s.take i).all (· == '.') then (s, []) else (s.take i, s.drop i)

/-- Lines 36–39 / 47–50 of frnm.py: split the sanitised string on `char`
and keep only the non-empty components. -/
def name_components (char : Char) (s : Name) : List Name :=
  (split_on char s).filter (fun comp => !comp.isEmpty)

/-- `generate_new_pathname` (frnm.py lines 24–53).  The Python function
receives a path and queries `os.path.isfile`; here the basename and the
file/directory classification are passed directly. -/
def generate_new_pathname (old_name : Name) (isfile : Bool) (char : Char) : Name :=
  if isfile then
    let pr := splitext old_name
    let new_root := stripChar char (excludedSub char pr.1)
    let comps := name_components char new_root
    if comps.length < 2 then old_name
    else join_on char comps ++ pr.2
  else
    let new_name := stripChar char (excludedSub char old_name)
    let comps := name_components char new_name
    if comps.length < 2 then old_name
    else join_on char comps

/-- The sanitisation target: the file root for a file, the whole basename
for a directory. -/
def sanitized_portion (old_name : Name) (isfile : Bool) : Name :=
  if isfile then (splitext old_name).1 else old_name

/-- Modelled from the spec (for the refinement comparison of the code's
per-character substitution): "Replace every run of disallowed characters in
the root with `char`" — every maximal run of excluded characters becomes a
single copy of `char`. -/
def runSub (char : Char) : Name → Name
  | [] => []
  | c :: cs =>
    if isExcluded c then char :: runSub char (cs.dropWhile isExcluded)
    else c :: runSub char cs
termination_by s => s.length
decreasing_by
  · exact Nat.lt_succ_of_le (List.dropWhile_suffix isExcluded).sublist.length_le
  · exact Nat.lt_succ_self _

/-- Modelled from the spec: the Name Generator described in §4.1, identical
to `generate_new_pathname` except that the replacement step substitutes one
`char` per maximal run of disallowed characters instead of one per
character. -/
def generate_spec (old_name : Name) (isfile : Bool) (char : Char) : Name :=
  if isfile then
    let pr := splitext old_name
    let new_root := stripChar char (runSub char pr.1)
    let comps := name_components char new_root
    if comps.length < 2 then old_name
    else join_on char comps ++ pr.2
  else
    let new_name := stripChar char (runSub char old_name)
    let comps := name_components char new_name
    if comps.length < 2 then old_name
    else join_on char comps

/-! ## Filesystem model

A directory is a list of file names plus a forest of named subdirectories;
a path is the list of name components below some fixed root directory. -/

mutual
inductive FSTree : Type where
  | dir (files : List Name) (subs : Forest)
inductive Forest : Type where
  | nil
  | cons (name : Name) (tree : FSTree) (rest : Forest)
end

/-- A path relative to the root directory of the model. -/
abbrev FPath := List Name

def FSTree.files : FSTree → List Name
  | .dir fs _ => fs

def FSTree.subs : FSTree → Forest
  | .dir _ sf => sf

def Forest.names : Forest → List Name
  | .nil => []
  | .cons n _ rest => n :: rest.names

def Forest.find : Forest → Name → Option FSTree
  | .nil, _ => none
  | .cons m t rest, n => if m = n then some t else rest.find n

/-- The subdirectory tree at a path, when the path denotes a directory. -/
def subtreeAt (t : FSTree) : FPath → Option FSTree
  | [] => some t
  | n :: rest =>
    match t.subs.find n with
    | some t' => subtreeAt t' rest
    | none => none

/-- `os.path.isdir` over the model. -/
def isdirPath (t : FSTree) (p : FPath) : Bool :=
  (subtreeAt t p).isSome

/-- `os.path.isfile` over the model. -/
def isfilePath (t : FSTree) : FPath → Bool
  | [] => false
  | [n] => t.files.contains n
  | n :: rest =>
    match t.subs.find n with
    | some t' => isfilePath t' rest
    | none => false

/-- `os.path.exists` over the model (every entry is a file or a directory). -/
def existsPath (t : FSTree) (p : FPath) : Bool :=
  isdirPath t p || isfilePath t p

/-- `os.listdir` over the model: the names in a directory, files first then
subdirectories (`os.listdir` returns them in unspecified order). -/
def listdir (t : FSTree) (p : FPath) : Option (List Name) :=
  (subtreeAt t p).map (fun d => d.files ++ d.subs.names)

/-- Rename the first list element equal to `old` to `new`. -/
def renameFirst : List Name → Name → Name → List Name
  | [], _, _ => []
  | x :: xs, old, new => if x = old then new :: xs else x :: renameFirst xs old new

def Forest.renameSub : Forest → Name → Name → Forest
  | .nil, _, _ => .nil
  | .cons m t rest, old, new =>
    if m = old then .cons new t rest else .cons m t (rest.renameSub old new)

/-- Rename the entry `old` of a directory to `new` (file list and
subdirectory forest; in a well-formed state at most one entry matches). -/
def renameInDir (d : FSTree) (old new : Name) : FSTree :=
  .dir (renameFirst d.files old new) (d.subs.renameSub old new)

mutual
def updateAt (t : FSTree) (p : FPath) (f : FSTree → FSTree) : FSTree :=
  match p with
  | [] => f t
  | n :: rest =>
    match t with
    | .dir fs subs => .dir fs (updateForest subs n rest f)
def updateForest (sf : Forest) (n : Name) (rest : FPath) (f : FSTree → FSTree) : Forest :=
  match sf with
  | .nil => .nil
  | .cons m t tail =>
    if m = n then .cons m (updateAt t rest f) tail
    else .cons m t (updateForest tail n rest f)
end

/-- `os.replace(src, dest)` as used by frnm: `src` and `dest` share the
parent directory `parent`; the entry `old` is renamed to `new`.  (The
overwrite case of `os.replace` is unreachable in frnm: the rename is only
performed after checking that no sibling bears the name `new`.) -/
def os_replace (t : FSTree) (parent : FPath) (old new : Name) : FSTree :=
  updateAt t parent (fun d => renameInDir d old new)

/-! ## Traversal -/

mutual
/-- `os.walk(directory, topdown=False)` over the model: the bottom-up
sequence of `(dirpath, dirnames, filenames)` triples, where `p` is the path
of the directory being walked. -/
def walk (p : FPath) : FSTree → List (FPath × List Name × List Name)
  | .dir fs subs => walkForest p subs ++ [(p, subs.names, fs)]
def walkForest (p : FPath) : Forest → List (FPath × List Name × List Name)
  | .nil => []
  | .cons n t rest => walk (p ++ [n]) t ++ walkForest p rest
end

/-- The children contributed by one yield of the walk: the file paths,
then the subdirectory paths (the two inner loops of `get_children`). -/
def walkEntries (y : FPath × List Name × List Name) : List FPath :=
  y.2.2.map (fun fn => y.1 ++ [fn]) ++ y.2.1.map (fun sn => y.1 ++ [sn])

/-- `get_children` (frnm.py lines 85–97): for each yield of the bottom-up
walk, append the file paths and then the subdirectory paths. -/
def get_children (p : FPath) (t : FSTree) : List FPath :=
  (walk p t).flatMap walkEntries

/-- The children contributed by the walks of a forest of subdirectories. -/
def forest_children (p : FPath) (f : Forest) : List FPath :=
  (walkForest p f).flatMap walkEntries

/-- The order in which `rename_file` processes a directory input with
`recursive=True` (frnm.py lines 145–149): all of `get_children`, then the
directory itself. -/
def renameOrder (p : FPath) (t : FSTree) : List FPath :=
  get_children p t ++ [p]

/-- Well-formedness of a filesystem: in every directory the subdirectory
names are pairwise distinct (true of any real filesystem). -/
def nodupB : List Name → Bool
  | [] => true
  | x :: xs => !(xs.contains x) && nodupB xs

mutual
def wfT : FSTree → Bool
  | .dir _ subs => nodupB subs.names && wfF subs
def wfF : Forest → Bool
  | .nil => true
  | .cons _ t rest => wfT t && wfF rest
end

/-! ## Rename engine -/

/-- The exceptions `rename_file` and `sanitize_file_name` can raise:
`ValueError`, `FileNotFoundError`, and `FileRenameError` (whose message
names the conflicting candidate). -/
inductive RunErr : Type where
  | valueError (msg : Name)
  | fileNotFoundError (path : FPath)
  | fileRenameError (conflict : Name)

/-- Result of running (part of) the program: normal completion, an uncaught
exception, or `sys.exit(code)`.  Each constructor carries the filesystem
state at that point. -/
inductive Outcome (α : Type) : Type where
  | ok (st : α)
  | err (e : RunErr) (st : α)
  | exited (code : Nat) (st : α)

/-- `sanitize_file_name` (frnm.py lines 56–82).  Printing of the rename
notice (`verbose`) has no filesystem effect and is elided. -/
def sanitize_file_name (fs : FSTree) (file_path : FPath) (char : Char)
    (verbose suppress : Bool) : Outcome FSTree :=
  match file_path.getLast? with
  | none => .ok fs
  | some old_name =>
    let dirname := file_path.dropLast
    let new_name := generate_new_pathname old_name (isfilePath fs file_path) char
    let siblings := ((listdir fs dirname).getD []).erase old_name
    if siblings.contains new_name then
      if !suppress then .err (.fileRenameError new_name) fs
      else .ok fs
    else
      if new_name ≠ old_name then .ok (os_replace fs dirname old_name new_name)
      else .ok fs

/-- The up-front existence loop of `rename_file` (lines 131–135): the first
input path that does not exist, if any. -/
def check_paths (fs : FSTree) : List FPath → Option FPath
  | [] => none
  | p :: rest => if existsPath fs p then check_paths fs rest else some p

/-- The `for child in children` loop of `rename_file` (lines 147–148). -/
def sanitize_children (fs : FSTree) (children : List FPath) (char : Char)
    (verbose suppress : Bool) : Outcome FSTree :=
  match children with
  | [] => .ok fs
  | c :: rest =>
    match sanitize_file_name fs c char verbose suppress with
    | .ok fs' => sanitize_children fs' rest char verbose suppress
    | e => e

/-- The body of the `for path in resolved_paths` loop (lines 137–152) for
one path. -/
def process_path (fs : FSTree) (p : FPath) (char : Char)
    (recursive verbose suppress : Bool) : Outcome FSTree :=
  if isfilePath fs p then sanitize_file_name fs p char verbose suppress
  else if isdirPath fs p then
    if recursive then
      match sanitize_children fs (get_children p ((subtreeAt fs p).getD (.dir [] .nil)))
          char verbose suppress with
      | .ok fs' => sanitize_file_name fs' p char verbose suppress
      | e => e
    else sanitize_file_name fs p char verbose suppress
  else .ok fs

/-- The `for path in resolved_paths` loop (lines 137–152). -/
def process_paths (fs : FSTree) (paths : List FPath) (char : Char)
    (recursive verbose suppress : Bool) : Outcome FSTree :=
  match paths with
  | [] => .ok fs
  | p :: rest =>
    match process_path fs p char recursive verbose suppress with
    | .ok fs' => process_paths fs' rest char recursive verbose suppress
    | e => e

/-- `rename_file` (frnm.py lines 100–152).  The substitution character
arrives as a Python string (`List Char`); the length-1 check (lines
112–115) precedes the `EXCLUDED_CHARS.match` check (lines 117–125), which
for a length-1 string tests its only character.  `os.path.realpath` is
modelled as the identity: input paths are taken already canonical. -/
def rename_file (char : Name) (files : List FPath)
    (recursive verbose suppress : Bool) (fs : FSTree) : Outcome FSTree :=
  match char with
  | [c] =>
    if isExcluded c then
      if !suppress then .err (.valueError "special character cannot be used".data) fs
      else .exited 1 fs
    else
      match check_paths fs files with
      | some p =>
        if !suppress then .err (.fileNotFoundError p) fs
        else .exited 1 fs
      | none => process_paths fs files c recursive verbose suppress
  | _ =>
    if !suppress then .err (.valueError "must be a single character".data) fs
    else .exited 1 fs

example : generate_new_pathname "my file (2023).txt".data true '_' = "my_file_2023.txt".data := by decide
example : generate_new_pathname "***.txt".data true '_' = "***.txt".data := by decide
example : generate_new_pathname "New Folder".data false '-' = "New-Folder".data := by decide
example : generate_new_pathname "a 1.txt".data true '_' = "a_1.txt".data := by decide
example : splitext ".bashrc".data = (".bashrc".data, []) := by decide
example : splitext "..txt".data = ("..txt".data, []) := by decide
example : splitext "a.tar.gz".data = ("a.tar".data, ".gz".data) := by decide
example : splitext "a.".data = ("a".data, ".".data) := by decide

/-! ## Basic lemmas about the splitting and joining primitives -/

theorem split_on_ne_nil (c : Char) (s : Name) : split_on c s ≠ [] := by
  induction s with
  | nil => simp [split_on]
  | cons x xs ih =>
    rw [split_on]
    split
    · simp
    · cases h : split_on c xs with
      | nil => simp
      | cons hh tt => simp

theorem join_on_cons_cons (c x : Char) (p : Name) (rest : List Name) :
    join_on c ((x :: p) :: rest) = x :: join_on c (p :: rest) := by
  cases rest <;> rfl

theorem join_on_nil_cons (c : Char) (q : Name) (rest : List Name) :
    join_on c ([] :: q :: rest) = c :: join_on c (q :: rest) := rfl

theorem join_on_split_on (c : Char) (s : Name) : join_on c (split_on c s) = s := by
  induction s with
  | nil => rfl
  | cons x xs ih =>
    rw [split_on]
    cases h : split_on c xs with
    | nil => exact absurd h (split_on_ne_nil c xs)
    | cons hh tt =>
      rw [h] at ih
      split
      · rename_i hx
        rw [join_on_nil_cons, ih]
        simp only [beq_iff_eq] at hx
        rw [hx]
      · rw [join_on_cons_cons, ih]

theorem not_mem_of_mem_split_on (c : Char) (s : Name) :
    ∀ p ∈ split_on c s, c ∉ p := by
  induction s with
  | nil => simp [split_on]
  | cons x xs ih =>
    rw [split_on]
    split
    · intro p hp
      rcases List.mem_cons.1 hp with rfl | hp
      · simp
      · exact ih p hp
    · rename_i hx
      simp only [beq_iff_eq] at hx
      cases h : split_on c xs with
      | nil => exact absurd h (split_on_ne_nil c xs)
      | cons hh tt =>
        intro p hp
        rcases List.mem_cons.1 hp with rfl | hp
        · have hhh : c ∉ hh := ih hh (h ▸ List.mem_cons_self hh tt)
          simp only [List.mem_cons]
          rintro (rfl | hc)
          · exact hx rfl
          · exact hhh hc
        · exact ih p (h ▸ List.mem_cons_of_mem hh hp)

theorem mem_of_mem_split_on (c : Char) (s : Name) :
    ∀ p ∈ split_on c s, ∀ x ∈ p, x ∈ s := by
  induction s with
  | nil => simp [split_on]
  | cons y xs ih =>
    rw [split_on]
    split
    · intro p hp
      rcases List.mem_cons.1 hp with rfl | hp
      · simp
      · exact fun x hx => List.mem_cons_of_mem y (ih p hp x hx)
    · cases h : split_on c xs with
      | nil => exact absurd h (split_on_ne_nil c xs)
      | cons hh tt =>
        intro p hp
        rcases List.mem_cons.1 hp with rfl | hp
        · intro x hx
          rcases List.mem_cons.1 hx with rfl | hx
          · exact List.mem_cons_self x xs
          · exact List.mem_cons_of_mem y (ih hh (h ▸ List.mem_cons_self hh tt) x hx)
        · exact fun x hx =>
            List.mem_cons_of_mem y (ih p (h ▸ List.mem_cons_of_mem hh hp) x hx)

theorem split_on_of_not_mem {c : Char} {p : Name} (hp : c ∉ p) :
    split_on c p = [p] := by
  induction p with
  | nil => rfl
  | cons x xs ih =>
    rw [split_on]
    have hx : ¬(x == c) = true := by
      simp only [beq_iff_eq]
      rintro rfl
      exact hp (List.mem_cons_self x xs)
    rw [if_neg hx, ih (fun hc => hp (List.mem_cons_of_mem x hc))]

theorem split_on_append_sep {c : Char} {p : Name} (hp : c ∉ p) (t : Name) :
    split_on c (p ++ c :: t) = p :: split_on c t := by
  induction p with
  | nil => simp [split_on]
  | cons x xs ih =>
    have hx : ¬(x == c) = true := by
      simp only [beq_iff_eq]
      rintro rfl
      exact hp (List.mem_cons_self x xs)
    rw [List.cons_append, split_on, if_neg hx, ih (fun hc => hp (List.mem_cons_of_mem x hc))]

theorem split_on_join_on {c : Char} :
    ∀ {comps : List Name}, comps ≠ [] → (∀ p ∈ comps, c ∉ p) →
      split_on c (join_on c comps) = comps := by
  intro comps
  induction comps with
  | nil => intro h; exact absurd rfl h
  | cons p rest ih =>
    intro _ hfree
    cases rest with
    | nil => exact split_on_of_not_mem (hfree p (List.mem_cons_self p []))
    | cons q qs =>
      rw [show join_on c (p :: q :: qs) = p ++ c :: join_on c (q :: qs) from rfl]
      rw [split_on_append_sep (hfree p (List.mem_cons_self p _))]
      rw [ih (by simp) (fun r hr => hfree r (List.mem_cons_of_mem p hr))]

/-- `splitext` reassembles: root ++ extension = the original name. -/
theorem splitext_fst_append_snd (s : Name) : (splitext s).1 ++ (splitext s).2 = s := by
  rw [splitext]
  split
  · simp
  · split
    · simp
    · simp

/-- The root returned by `splitext` is a prefix (`take`) of the name. -/
theorem splitext_fst_eq_take (s : Name) : ∃ k, (splitext s).1 = s.take k := by
  rw [splitext]
  split
  · exact ⟨s.length, by simp⟩
  · split
    · exact ⟨s.length, by simp⟩
    · exact ⟨_, rfl⟩

/-- The component list computed by lines 34–39 / 45–50 of frnm.py:
substitute, strip, split, drop empties. -/
def sanitize_comps (char : Char) (s : Name) : List Name :=
  name_components char (stripChar char (excludedSub char s))

theorem gen_file_eq (name : Name) (char : Char) :
    generate_new_pathname name true char =
      if (sanitize_comps char (splitext name).1).length < 2 then name
      else join_on char (sanitize_comps char (splitext name).1) ++ (splitext name).2 := rfl

theorem gen_dir_eq (name : Name) (char : Char) :
    generate_new_pathname name false char =
      if (sanitize_comps char name).length < 2 then name
      else join_on char (sanitize_comps char name) := rfl

theorem gen_eq (name : Name) (isfile : Bool) (char : Char) :
    generate_new_pathname name isfile char =
      if (sanitize_comps char (sanitized_portion name isfile)).length < 2 then name
      else join_on char (sanitize_comps char (sanitized_portion name isfile)) ++
        (if isfile then (splitext name).2 else []) := by
  cases isfile
  · rw [gen_dir_eq]
    split <;> rename_i h <;> simp [sanitized_portion, h]
  · rw [gen_file_eq]
    split <;> rename_i h <;> simp [sanitized_portion, h]

/-- Helper: the few-components branch returns the basename verbatim. -/
theorem gen_of_few (name : Name) (isfile : Bool) (char : Char)
    (h : (sanitize_comps char (sanitized_portion name isfile)).length < 2) :
    generate_new_pathname name isfile char = name := by
  rw [gen_eq, if_pos h]

/-- Helper: the rejoin branch. -/
theorem gen_of_many (name : Name) (isfile : Bool) (char : Char)
    (h : ¬ (sanitize_comps char (sanitized_portion name isfile)).length < 2) :
    generate_new_pathname name isfile char =
      join_on char (sanitize_comps char (sanitized_portion name isfile)) ++
        (if isfile then (splitext name).2 else []) := by
  rw [gen_eq, if_neg h]

/-- C3: if the sanitised portion yields fewer than two non-empty
components after replacement, trimming and splitting, the original
basename is returned verbatim. -/
theorem generate_of_few_components (name : Name) (isfile : Bool) (char : Char)
    (h : (name_components char (stripChar char (excludedSub char
      (sanitized_portion name isfile)))).length < 2) :
    generate_new_pathname name isfile char = name :=
  gen_of_few name isfile char h

/-- C6: for a file whose basename has a non-empty extension, the candidate
is some string with exactly that extension appended — in both branches of
the Name Generator. -/
theorem generate_keeps_extension (name : Name) (char : Char)
    (hext : (splitext name).2 ≠ []) :
    ∃ r, generate_new_pathname name true char = r ++ (splitext name).2 := by
  rw [gen_file_eq]
  split
  · exact ⟨(splitext name).1, (splitext_fst_append_snd name).symm⟩
  · exact ⟨_, rfl⟩

/-! ## Cleanliness predicates for sanitised names -/

/-- `s` consists solely of (one or more copies of) the character `c`. -/
def solely (c : Char) (s : Name) : Bool :=
  !s.isEmpty && s.all (· == c)

/-- `s` does not begin with `c`. -/
def headNe (c : Char) (s : Name) : Bool :=
  !(s.head? == some c)

/-- `s` does not end with `c`. -/
def lastNe (c : Char) (s : Name) : Bool :=
  !(s.getLast? == some c)

/-- `s` has no two consecutive occurrences of `c`. -/
def noDouble (c : Char) : Name → Bool
  | [] => true
  | [_] => true
  | x :: y :: rest => !(x == c && y == c) && noDouble c (y :: rest)

/-! ## Structure of the component list and of the rejoined root -/

theorem mem_sanitize_comps {char : Char} {s p : Name}
    (hp : p ∈ sanitize_comps char s) : p ≠ [] ∧ char ∉ p := by
  have h2 := List.of_mem_filter hp
  have h1 := List.mem_of_mem_filter hp
  refine ⟨by simpa using h2, not_mem_of_mem_split_on _ _ p h1⟩

theorem mem_of_mem_stripChar {c : Char} {s : Name} {x : Char}
    (hx : x ∈ stripChar c s) : x ∈ s := by
  unfold stripChar at hx
  have h1 := List.mem_reverse.1 hx
  have h2 := (List.dropWhile_sublist _).subset h1
  have h3 := List.mem_reverse.1 h2
  exact (List.dropWhile_sublist _).subset h3

theorem mem_excludedSub_allowed {char : Char} {s : Name} {x : Char}
    (hch : isExcluded char = false) (hx : x ∈ excludedSub char s) :
    isExcluded x = false := by
  rcases List.mem_map.1 hx with ⟨c, _, rfl⟩
  cases h : isExcluded c
  · simp [h]
  · simp [h, hch]

theorem allowed_of_mem_sanitize_comps {char : Char} {s p : Name}
    (hch : isExcluded char = false) (hp : p ∈ sanitize_comps char s) :
    ∀ x ∈ p, isExcluded x = false := by
  intro x hx
  have h1 := List.mem_of_mem_filter hp
  have h2 := mem_of_mem_split_on _ _ p h1 x hx
  exact mem_excludedSub_allowed hch (mem_of_mem_stripChar h2)

theorem join_on_head? {c : Char} {p : Name} (rest : List Name) (hp : p ≠ []) :
    (join_on c (p :: rest)).head? = p.head? := by
  cases p with
  | nil => exact absurd rfl hp
  | cons x xs => rw [join_on_cons_cons]; rfl

theorem join_on_ne_nil {c : Char} {p : Name} {rest : List Name} (hp : p ≠ []) :
    join_on c (p :: rest) ≠ [] := by
  cases p with
  | nil => exact absurd rfl hp
  | cons x xs => rw [join_on_cons_cons]; simp

theorem mem_join_on {c : Char} :
    ∀ {comps : List Name} {x : Char}, x ∈ join_on c comps →
      x = c ∨ ∃ p ∈ comps, x ∈ p := by
  intro comps
  induction comps with
  | nil => intro x hx; cases hx
  | cons p rest ih =>
    intro x hx
    cases rest with
    | nil => exact Or.inr ⟨p, by simp, hx⟩
    | cons q qs =>
      rw [show join_on c (p :: q :: qs) = p ++ c :: join_on c (q :: qs) from rfl] at hx
      rcases List.mem_append.1 hx with h | h
      · exact Or.inr ⟨p, by simp, h⟩
      · rcases List.mem_cons.1 h with rfl | h
        · exact Or.inl rfl
        · rcases ih h with h' | ⟨r, hr, hxr⟩
          · exact Or.inl h'
          · exact Or.inr ⟨r, List.mem_cons_of_mem p hr, hxr⟩

theorem join_on_getLast?_ne {c : Char} :
    ∀ (comps : List Name), (∀ p ∈ comps, p ≠ [] ∧ c ∉ p) → comps ≠ [] →
      (join_on c comps).getLast? ≠ some c := by
  intro comps
  induction comps with
  | nil => intro _ h; exact absurd rfl h
  | cons p rest ih =>
    intro hall _
    cases rest with
    | nil =>
      intro h
      exact (hall p (by simp)).2 (List.mem_of_mem_getLast? h)
    | cons q qs =>
      rw [show join_on c (p :: q :: qs) = p ++ c :: join_on c (q :: qs) from rfl]
      rw [List.getLast?_append_of_ne_nil _ (by simp)]
      have hq : q ≠ [] := (hall q (by simp)).1
      have hjn : join_on c (q :: qs) ≠ [] := join_on_ne_nil hq
      rw [show (c :: join_on c (q :: qs)) = [c] ++ join_on c (q :: qs) from rfl,
        List.getLast?_append_of_ne_nil _ hjn]
      exact ih (fun r hr => hall r (List.mem_cons_of_mem p hr)) (by simp)

theorem noDouble_of_not_mem {c : Char} :
    ∀ {p : Name}, c ∉ p → noDouble c p = true := by
  intro p
  induction p with
  | nil => intro _; rfl
  | cons x xs ih =>
    intro h
    have hx : ¬x = c := fun hh => h (hh ▸ List.mem_cons_self x _)
    cases xs with
    | nil => rfl
    | cons y ys =>
      have h1 : noDouble c (y :: ys) = true := ih (fun hm => h (List.mem_cons_of_mem x hm))
      simp [noDouble, hx, h1]

theorem noDouble_append {c : Char} {s : Name} (hs : noDouble c s = true) :
    ∀ {p : Name}, c ∉ p → noDouble c (p ++ s) = true := by
  intro p
  induction p with
  | nil => intro _; simpa
  | cons x xs ih =>
    intro hp
    have hx : ¬x = c := fun hh => hp (hh ▸ List.mem_cons_self _ _)
    have hxs : c ∉ xs := fun hm => hp (List.mem_cons_of_mem x hm)
    cases xs with
    | nil =>
      cases s with
      | nil => rfl
      | cons y t => simpa [noDouble, hx] using hs
    | cons x2 xs2 =>
      have h2 := ih hxs
      simpa [noDouble, hx] using h2

theorem noDouble_join {c : Char} :
    ∀ (comps : List Name), (∀ p ∈ comps, p ≠ [] ∧ c ∉ p) →
      noDouble c (join_on c comps) = true := by
  intro comps
  induction comps with
  | nil => intro _; rfl
  | cons p rest ih =>
    intro hall
    cases rest with
    | nil => exact noDouble_of_not_mem (hall p (by simp)).2
    | cons q qs =>
      rw [show join_on c (p :: q :: qs) = p ++ c :: join_on c (q :: qs) from rfl]
      refine noDouble_append ?_ (hall p (by simp)).2
      obtain ⟨z, zs, rfl⟩ : ∃ z zs, q = z :: zs := by
        cases hq : q with
        | nil => exact absurd rfl (hq ▸ (hall q (by simp)).1)
        | cons z zs => exact ⟨z, zs, rfl⟩
      rw [join_on_cons_cons]
      have hz : ¬z = c := fun hh =>
        (hall (z :: zs) (by simp)).2 (hh ▸ List.mem_cons_self _ _)
      have htail : noDouble c (join_on c ((z :: zs) :: qs)) = true :=
        ih (fun r hr => hall r (List.mem_cons_of_mem p hr))
      rw [join_on_cons_cons] at htail
      simp [noDouble, hz, htail]

theorem head?_take {l : Name} {k : Nat} (hk : 0 < k) : (l.take k).head? = l.head? := by
  cases l with
  | nil => simp
  | cons x xs =>
    cases k with
    | zero => exact absurd hk (by simp)
    | succ k => simp

/-- Everything that holds of the rejoined root `join_on char comps` when the
component list is non-empty. -/
theorem sanitize_comps_clean (char : Char) (s : Name) (hch : isExcluded char = false)
    (hne : sanitize_comps char s ≠ []) :
    join_on char (sanitize_comps char s) ≠ [] ∧
    (∀ x ∈ join_on char (sanitize_comps char s), isExcluded x = false) ∧
    headNe char (join_on char (sanitize_comps char s)) = true ∧
    lastNe char (join_on char (sanitize_comps char s)) = true ∧
    noDouble char (join_on char (sanitize_comps char s)) = true := by
  have hall : ∀ p ∈ sanitize_comps char s, p ≠ [] ∧ char ∉ p :=
    fun p hp => mem_sanitize_comps hp
  obtain ⟨p, rest, hc⟩ : ∃ p rest, sanitize_comps char s = p :: rest := by
    cases h : sanitize_comps char s with
    | nil => exact absurd h hne
    | cons p rest => exact ⟨p, rest, rfl⟩
  have hp : p ≠ [] ∧ char ∉ p := hall p (hc ▸ List.mem_cons_self _ _)
  refine ⟨?_, ?_, ?_, ?_, ?_⟩
  · rw [hc]; exact join_on_ne_nil hp.1
  · intro x hx
    rcases mem_join_on hx with rfl | ⟨q, hq, hxq⟩
    · exact hch
    · exact allowed_of_mem_sanitize_comps hch hq x hxq
  · rw [hc, headNe, join_on_head? rest hp.1]
    obtain ⟨y, ys, rfl⟩ : ∃ y ys, p = y :: ys := by
      cases hq : p with
      | nil => exact absurd rfl (hq ▸ hp.1)
      | cons y ys => exact ⟨y, ys, rfl⟩
    have hy : ¬y = char := fun hh => hp.2 (hh ▸ List.mem_cons_self _ _)
    simp [hy]
  · rw [lastNe, Bool.not_eq_true', beq_eq_false_iff_ne]
    exact join_on_getLast?_ne _ hall (hc ▸ by simp)
  · exact noDouble_join _ hall

/-- The head of the rejoined root, when the component list is non-empty:
some character other than `char`. -/
theorem join_on_sanitize_comps_head (char : Char) (s : Name)
    (hne : sanitize_comps char s ≠ []) :
    ∃ y, (join_on char (sanitize_comps char s)).head? = some y ∧ y ≠ char := by
  obtain ⟨p, rest, hc⟩ : ∃ p rest, sanitize_comps char s = p :: rest := by
    cases h : sanitize_comps char s with
    | nil => exact absurd h hne
    | cons p rest => exact ⟨p, rest, rfl⟩
  have hp : p ≠ [] ∧ char ∉ p := mem_sanitize_comps (hc ▸ List.mem_cons_self _ _)
  obtain ⟨y, ys, rfl⟩ : ∃ y ys, p = y :: ys := by
    cases hq : p with
    | nil => exact absurd rfl (hq ▸ hp.1)
    | cons y ys => exact ⟨y, ys, rfl⟩
  refine ⟨y, ?_, fun hh => hp.2 (hh ▸ List.mem_cons_self _ _)⟩
  rw [hc, join_on_head? rest hp.1]
  rfl

theorem solely_eq_false_of_head {c y : Char} {s : Name}
    (hh : s.head? = some y) (hy : y ≠ c) : solely c s = false := by
  cases s with
  | nil => cases hh
  | cons x xs =>
    obtain rfl : x = y := by simpa using hh
    simp [solely, hy]

/-- C10: whenever the Name Generator returns a changed name, the rejoined
root it built is non-empty, consists of allowed characters only, neither
begins nor ends with the substitution character, and has no two
consecutive occurrences of it; the returned name is that root with the
original extension appended (files) or the root itself (directories). -/
theorem generate_changed_portion_clean (name : Name) (isfile : Bool) (char : Char)
    (hch : isExcluded char = false)
    (hne : generate_new_pathname name isfile char ≠ name) :
    ∃ portion,
      generate_new_pathname name isfile char =
        portion ++ (if isfile then (splitext name).2 else []) ∧
      portion ≠ [] ∧ (∀ x ∈ portion, isExcluded x = false) ∧
      headNe char portion = true ∧ lastNe char portion = true ∧
      noDouble char portion = true := by
  by_cases hlen : (sanitize_comps char (sanitized_portion name isfile)).length < 2
  · exact absurd (gen_of_few name isfile char hlen) hne
  · have hcne : sanitize_comps char (sanitized_portion name isfile) ≠ [] := by
      intro h; rw [h] at hlen; simp at hlen
    obtain ⟨h1, h2, h3, h4, h5⟩ := sanitize_comps_clean char _ hch hcne
    exact ⟨_, gen_of_many name isfile char hlen, h1, h2, h3, h4, h5⟩

/-- Witness for `generate_changed_portion_clean` at `"a b.txt"`, `'_'`. -/
theorem generate_changed_portion_clean_witness :
    isExcluded '_' = false ∧
    generate_new_pathname "a b.txt".data true '_' ≠ "a b.txt".data ∧
    (∃ portion,
      generate_new_pathname "a b.txt".data true '_' =
        portion ++ (if true then (splitext "a b.txt".data).2 else []) ∧
      portion ≠ [] ∧ (∀ x ∈ portion, isExcluded x = false) ∧
      headNe '_' portion = true ∧ lastNe '_' portion = true ∧
      noDouble '_' portion = true) :=
  ⟨by decide, by decide,
    generate_changed_portion_clean "a b.txt".data true '_' (by decide) (by decide)⟩

/-- Counterexample to C9 as stated: for the directory basename `"_"` the
Name Generator returns `"_"` itself, whose sanitised portion consists
solely of the substitution character. -/
theorem no_solely_output_cex :
    solely '_' (sanitized_portion (generate_new_pathname "_".data false '_') false) = true := by
  decide

/-- C9 (amended): whenever the Name Generator returns a name different
from the original basename, the sanitised portion of the returned name is
not made up solely of the substitution character. -/
theorem generate_changed_not_solely (name : Name) (isfile : Bool) (char : Char)
    (hch : isExcluded char = false)
    (hne : generate_new_pathname name isfile char ≠ name) :
    solely char (sanitized_portion (generate_new_pathname name isfile char) isfile) = false := by
  by_cases hlen : (sanitize_comps char (sanitized_portion name isfile)).length < 2
  · exact absurd (gen_of_few name isfile char hlen) hne
  · have hcne : sanitize_comps char (sanitized_portion name isfile) ≠ [] := by
      intro h; rw [h] at hlen; simp at hlen
    obtain ⟨y, hy, hyc⟩ := join_on_sanitize_comps_head char _ hcne
    have hjne : join_on char (sanitize_comps char (sanitized_portion name isfile)) ≠ [] :=
      fun h => by rw [h] at hy; cases hy
    have hgen := gen_of_many name isfile char hlen
    have hrh : (generate_new_pathname name isfile char).head? = some y := by
      rw [hgen, List.head?_append_of_ne_nil _ hjne, hy]
    cases isfile with
    | false =>
      rw [sanitized_portion, if_neg (by simp)]
      exact solely_eq_false_of_head hrh hyc
    | true =>
      rw [sanitized_portion, if_pos rfl]
      obtain ⟨k, hk⟩ := splitext_fst_eq_take (generate_new_pathname name true char)
      rw [hk]
      cases k with
      | zero => simp [solely]
      | succ k =>
        exact solely_eq_false_of_head ((head?_take (Nat.succ_pos k)).trans hrh) hyc

/-- Witness for `generate_changed_not_solely` at `"a b.txt"`, `'_'`. -/
theorem generate_changed_not_solely_witness :
    isExcluded '_' = false ∧
    generate_new_pathname "a b 1.txt".data true '_' ≠ "a b 1.txt".data ∧
    solely '_' (sanitized_portion (generate_new_pathname "a b 1.txt".data true '_') true) = false :=
  ⟨by decide, by decide,
    generate_changed_not_solely "a b 1.txt".data true '_' (by decide) (by decide)⟩

/-- Witness for `generate_of_few_components` at `"***.txt"`, `'_'`. -/
theorem generate_of_few_components_witness :
    (name_components '_' (stripChar '_' (excludedSub '_'
      (sanitized_portion "***.txt".data true)))).length < 2 ∧
    generate_new_pathname "***.txt".data true '_' = "***.txt".data :=
  ⟨by decide, generate_of_few_components "***.txt".data true '_' (by decide)⟩

/-- Witness for `generate_keeps_extension` at `"a b.txt"`, `'_'`. -/
theorem generate_keeps_extension_witness :
    (splitext "a b.txt".data).2 ≠ [] ∧
    ∃ r, generate_new_pathname "a b.txt".data true '_' = r ++ (splitext "a b.txt".data).2 :=
  ⟨by decide, generate_keeps_extension "a b.txt".data '_' (by decide)⟩

/-! ## C2: collision safety of a single rename -/

theorem sanitize_eq (fs : FSTree) (fp : FPath) (char : Char) (v s : Bool) (old : Name)
    (h : fp.getLast? = some old) :
    sanitize_file_name fs fp char v s =
      (if (((listdir fs fp.dropLast).getD []).erase old).contains
            (generate_new_pathname old (isfilePath fs fp) char) then
         if !s then
           .err (.fileRenameError (generate_new_pathname old (isfilePath fs fp) char)) fs
         else .ok fs
       else
         if generate_new_pathname old (isfilePath fs fp) char ≠ old then
           .ok (os_replace fs fp.dropLast old
             (generate_new_pathname old (isfilePath fs fp) char))
         else .ok fs) := by
  rw [sanitize_file_name, h]

/-- C2: if the candidate name occurs among the current siblings (the
parent's listing minus the entry's own basename), the rename does not
happen — a `FileRenameError` naming the candidate when errors are not
suppressed, a silent skip otherwise; and a rename to a name occupied by a
distinct sibling never takes place. -/
theorem sanitize_collision_safe (fs : FSTree) (fp : FPath) (char : Char)
    (v s : Bool) (old : Name) (h : fp.getLast? = some old) :
    ((((listdir fs fp.dropLast).getD []).erase old).contains
        (generate_new_pathname old (isfilePath fs fp) char) = true →
      sanitize_file_name fs fp char v s =
        (if s then Outcome.ok fs
         else .err (.fileRenameError (generate_new_pathname old (isfilePath fs fp) char)) fs)) ∧
    (∀ fs', sanitize_file_name fs fp char v s = .ok fs' → fs' ≠ fs →
      (((listdir fs fp.dropLast).getD []).erase old).contains
        (generate_new_pathname old (isfilePath fs fp) char) = false) := by
  constructor
  · intro hc
    rw [sanitize_eq fs fp char v s old h, if_pos hc]
    cases s <;> simp
  · intro fs' hok hne
    by_cases hc : (((listdir fs fp.dropLast).getD []).erase old).contains
        (generate_new_pathname old (isfilePath fs fp) char) = true
    · rw [sanitize_eq fs fp char v s old h, if_pos hc] at hok
      cases s with
      | true => simp at hok; exact absurd hok.symm hne
      | false => simp at hok
    · simpa using hc

/-- A concrete directory for witnesses: files `"a 1.txt"` and `"a_1.txt"`
(spec scenario 4). -/
def fsColl : FSTree := .dir ["a 1.txt".data, "a_1.txt".data] .nil

/-- The concrete path of `"a 1.txt"` inside `fsColl`. -/
def fpColl : FPath := ["a 1.txt".data]

/-- Witness for `sanitize_collision_safe`: renaming `"a 1.txt"` with `'_'`
collides with the sibling `"a_1.txt"`. -/
theorem sanitize_collision_safe_witness :
    fpColl.getLast? = some "a 1.txt".data ∧
    (((((listdir fsColl fpColl.dropLast).getD []).erase "a 1.txt".data).contains
        (generate_new_pathname "a 1.txt".data (isfilePath fsColl fpColl) '_') = true →
      sanitize_file_name fsColl fpColl '_' true false =
        (if false then Outcome.ok fsColl
         else .err (.fileRenameError
            (generate_new_pathname "a 1.txt".data (isfilePath fsColl fpColl) '_')) fsColl)) ∧
    (∀ fs', sanitize_file_name fsColl fpColl '_' true false = .ok fs' → fs' ≠ fsColl →
      (((listdir fsColl fpColl.dropLast).getD []).erase "a 1.txt".data).contains
        (generate_new_pathname "a 1.txt".data (isfilePath fsColl fpColl) '_') = false)) :=
  ⟨rfl, sanitize_collision_safe fsColl fpColl '_' true false "a 1.txt".data rfl⟩

/-! ## C7: fixed points of the Name Generator -/

theorem excludedSub_id {char : Char} {s : Name}
    (h : ∀ x ∈ s, isExcluded x = false) : excludedSub char s = s := by
  unfold excludedSub
  have : ∀ x ∈ s, (if isExcluded x then char else x) = id x := by
    intro x hx
    simp [h x hx]
  rw [List.map_congr_left this, List.map_id]

theorem dropWhile_beq_id {c : Char} {s : Name} (h : s.head? ≠ some c) :
    s.dropWhile (· == c) = s := by
  cases s with
  | nil => rfl
  | cons x xs =>
    have hx : ¬(x == c) = true := by
      simp only [beq_iff_eq]
      rintro rfl
      exact h rfl
    simp [List.dropWhile_cons, hx]

theorem stripChar_id {char : Char} {s : Name}
    (hh : s.head? ≠ some char) (hl : s.getLast? ≠ some char) :
    stripChar char s = s := by
  unfold stripChar
  rw [dropWhile_beq_id hh, dropWhile_beq_id (by rwa [List.head?_reverse]),
    List.reverse_reverse]

/-- A string that does not begin or end with `c` and has no two adjacent
copies of `c` splits into non-empty components only. -/
theorem split_on_no_empty {c : Char} :
    ∀ (s : Name), s ≠ [] → s.head? ≠ some c → s.getLast? ≠ some c →
      noDouble c s = true → ∀ p ∈ split_on c s, p ≠ [] := by
  have H : ∀ (n : Nat) (s : Name), s.length ≤ n → s ≠ [] → s.head? ≠ some c →
      s.getLast? ≠ some c → noDouble c s = true → ∀ p ∈ split_on c s, p ≠ [] := by
    intro n
    induction n with
    | zero =>
      intro s hlen h0 _ _ _
      cases s with
      | nil => exact absurd rfl h0
      | cons x xs => simp at hlen
    | succ n ih =>
      intro s hlen h0 hh hl hd
      cases s with
      | nil => exact absurd rfl h0
      | cons x s' =>
        have hx : ¬(x == c) = true := by
          simp only [beq_iff_eq]
          rintro rfl
          exact hh rfl
        cases s' with
        | nil =>
          rw [split_on, if_neg hx]
          intro p hp
          rcases List.mem_cons.1 hp with rfl | hp
          · simp
          · simp [split_on] at hp
        | cons y rest =>
          by_cases hy : y = c
          · rw [hy] at hd hl ⊢
            -- noDouble forces the char after the separator to differ from c,
            -- and getLast? forces rest nonempty
            cases rest with
            | nil => simp at hl
            | cons z zs =>
              have hz : ¬(z == c) = true := by
                have := hd
                simp only [noDouble, Bool.and_eq_true, Bool.not_eq_true',
                  Bool.and_eq_false_iff] at this
                rcases this.2.1 with h | h
                · simp at h
                · simp [h]
              have hsplit : split_on c (x :: c :: z :: zs) = [x] :: split_on c (z :: zs) := by
                rw [split_on, if_neg hx, split_on, if_pos (by simp)]
              rw [hsplit]
              intro p hp
              rcases List.mem_cons.1 hp with rfl | hp
              · simp
              · refine ih (z :: zs) (by simp at hlen ⊢; omega) (by simp) ?_ ?_ ?_ p hp
                · simp only [List.head?_cons, Ne, Option.some.injEq]
                  intro hzz
                  simp [hzz] at hz
                · simpa using hl
                · have := hd
                  simp only [noDouble, Bool.and_eq_true] at this
                  exact this.2.2
          · have hih := ih (y :: rest) (by simp at hlen ⊢; omega) (by simp)
              (by simpa using hy) (by simpa using hl)
              (by simp only [noDouble, Bool.and_eq_true] at hd; exact hd.2)
            rw [split_on, if_neg hx]
            cases heq : split_on c (y :: rest) with
            | nil => exact absurd heq (split_on_ne_nil c _)
            | cons hcomp tt =>
              intro p hp
              rcases List.mem_cons.1 hp with rfl | hp
              · simp
              · exact hih p (heq ▸ List.mem_cons_of_mem hcomp hp)
  exact fun s => H s.length s (le_refl _)

/-- Counterexample to C7 as stated: `"a_b_.txt"` consists only of allowed
characters and has no leading, trailing, or consecutive underscore, yet
the Name Generator changes it (to `"a_b.txt"`: the trailing separator of
the file root is trimmed). -/
theorem idempotent_on_clean_cex :
    (∀ x ∈ "a_b_.txt".data, isExcluded x = false) ∧
    headNe '_' "a_b_.txt".data = true ∧
    lastNe '_' "a_b_.txt".data = true ∧
    noDouble '_' "a_b_.txt".data = true ∧
    generate_new_pathname "a_b_.txt".data true '_' ≠ "a_b_.txt".data :=
  ⟨by decide, by decide, by decide, by decide, by decide⟩

/-- A name of allowed characters whose sanitised portion (file root, or
whole directory name) neither begins nor ends with the substitution
character and has no two consecutive occurrences of it is returned
unchanged by the Name Generator. -/
theorem generate_fixed_point (name : Name) (isfile : Bool) (char : Char)
    (hall : ∀ x ∈ name, isExcluded x = false)
    (hhead : headNe char (sanitized_portion name isfile) = true)
    (hlast : lastNe char (sanitized_portion name isfile) = true)
    (hnd : noDouble char (sanitized_portion name isfile) = true) :
    generate_new_pathname name isfile char = name := by
  by_cases hlen : (sanitize_comps char (sanitized_portion name isfile)).length < 2
  · exact gen_of_few _ _ _ hlen
  · rw [gen_of_many _ _ _ hlen]
    have hrootsub : ∀ x ∈ sanitized_portion name isfile, isExcluded x = false := by
      intro x hx
      apply hall
      cases isfile with
      | false => simpa [sanitized_portion] using hx
      | true =>
        obtain ⟨k, hk⟩ := splitext_fst_eq_take name
        rw [sanitized_portion, if_pos rfl, hk] at hx
        exact List.take_subset k name hx
    have hh' : (sanitized_portion name isfile).head? ≠ some char := by
      rw [headNe, Bool.not_eq_true', beq_eq_false_iff_ne] at hhead
      exact hhead
    have hl' : (sanitized_portion name isfile).getLast? ≠ some char := by
      rw [lastNe, Bool.not_eq_true', beq_eq_false_iff_ne] at hlast
      exact hlast
    have hroot_ne : sanitized_portion name isfile ≠ [] := by
      intro h
      rw [h, show (sanitize_comps char []).length = 0 from rfl] at hlen
      exact hlen (by decide)
    have hcomps : sanitize_comps char (sanitized_portion name isfile) =
        split_on char (sanitized_portion name isfile) := by
      unfold sanitize_comps name_components
      rw [excludedSub_id hrootsub, stripChar_id hh' hl']
      refine List.filter_eq_self.2 ?_
      intro p hp
      have := split_on_no_empty (sanitized_portion name isfile) hroot_ne hh' hl' hnd p hp
      simpa using this
    rw [hcomps, join_on_split_on]
    cases isfile with
    | false => simp [sanitized_portion]
    | true =>
      rw [sanitized_portion, if_pos rfl, if_pos rfl]
      exact splitext_fst_append_snd name


/-! ## Structure of `splitext` -/

theorem lastDotIdx_eq_none_iff {s : Name} : lastDotIdx s = none ↔ '.' ∉ s := by
  induction s with
  | nil => simp [lastDotIdx]
  | cons c cs ih =>
    rw [lastDotIdx]
    cases h : lastDotIdx cs with
    | some i =>
      rw [h] at ih
      have hmem : '.' ∈ cs := by
        by_contra hnm
        exact absurd (ih.2 hnm) (by simp)
      simp [hmem]
    | none =>
      rw [h] at ih
      have hcs : '.' ∉ cs := ih.1 rfl
      by_cases hc : c = '.'
      · simp [hc]
      · have h3 : ('.' = c) → False := fun hh => hc hh.symm
        simp [hc, hcs]
        exact h3

theorem lastDotIdx_append_dot {u : Name} (hu : '.' ∉ u) :
    ∀ (a : Name), lastDotIdx (a ++ '.' :: u) = some a.length := by
  intro a
  induction a with
  | nil =>
    have h := lastDotIdx_eq_none_iff.2 hu
    simp [lastDotIdx, h]
  | cons c a' ih =>
    rw [List.cons_append, lastDotIdx, ih]
    simp

theorem lastDotIdx_lt_length {s : Name} {i : Nat} (h : lastDotIdx s = some i) :
    i < s.length := by
  induction s generalizing i with
  | nil => simp [lastDotIdx] at h
  | cons c cs ih =>
    rw [lastDotIdx] at h
    cases h' : lastDotIdx cs with
    | some j =>
      simp only [h'] at h
      obtain rfl : j + 1 = i := by simpa using h
      simpa using ih h'
    | none =>
      simp only [h'] at h
      split at h
      · obtain rfl : (0 : Nat) = i := by simpa using h
        simp
      · cases h

theorem lastDotIdx_drop {s : Name} {i : Nat} (h : lastDotIdx s = some i) :
    ∃ u, s.drop i = '.' :: u ∧ '.' ∉ u := by
  induction s generalizing i with
  | nil => simp [lastDotIdx] at h
  | cons c cs ih =>
    rw [lastDotIdx] at h
    cases h' : lastDotIdx cs with
    | some j =>
      simp only [h'] at h
      obtain rfl : j + 1 = i := by simpa using h
      simpa using ih h'
    | none =>
      simp only [h'] at h
      split at h
      · rename_i hc
        obtain rfl : (0 : Nat) = i := by simpa using h
        exact ⟨cs, by simp [hc], lastDotIdx_eq_none_iff.1 h'⟩
      · cases h

theorem splitext_of_not_mem {s : Name} (h : '.' ∉ s) : splitext s = (s, []) := by
  rw [splitext, lastDotIdx_eq_none_iff.2 h]

theorem splitext_eq_some {s : Name} {i : Nat} (h : lastDotIdx s = some i) :
    splitext s =
      if ((s.take i).all (· == '.')) = true then (s, [])
      else (s.take i, s.drop i) := by
  rw [splitext, h]

theorem splitext_append_dot {a u : Name} (ha : ∃ x ∈ a, ¬x = '.') (hu : '.' ∉ u) :
    splitext (a ++ '.' :: u) = (a, '.' :: u) := by
  have htake : (a ++ '.' :: u).take a.length = a := List.take_left a _
  have hall : ((a ++ '.' :: u).take a.length).all (· == '.') = false := by
    rw [htake]
    obtain ⟨x, hx, hxd⟩ := ha
    exact List.all_eq_false.2 ⟨x, hx, by simpa using hxd⟩
  rw [splitext_eq_some (lastDotIdx_append_dot hu a), if_neg (by rw [hall]; simp),
    htake, List.drop_left a _]

theorem splitext_replicate_dot {m : Nat} {u : Name} (hu : '.' ∉ u) :
    splitext (List.replicate m '.' ++ u) = (List.replicate m '.' ++ u, []) := by
  cases m with
  | zero => simpa using splitext_of_not_mem hu
  | succ m =>
    have h1 : List.replicate (m + 1) '.' ++ u = List.replicate m '.' ++ '.' :: u := by
      rw [List.replicate_succ', List.append_assoc]
      rfl
    have hl : lastDotIdx (List.replicate (m + 1) '.' ++ u) = some m := by
      rw [h1]
      simpa using lastDotIdx_append_dot hu (List.replicate m '.')
    have htk : (List.replicate (m + 1) '.' ++ u).take m = List.replicate m '.' := by
      rw [List.take_append_of_le_length (by simp), List.take_replicate,
        Nat.min_eq_left (by omega)]
    rw [splitext_eq_some hl, if_pos (by rw [htk]; simp)]

theorem splitext_snd_eq_nil_structure {s : Name} (h : (splitext s).2 = []) :
    ∃ m u, s = List.replicate m '.' ++ u ∧ '.' ∉ u := by
  cases h' : lastDotIdx s with
  | none => exact ⟨0, s, by simp, lastDotIdx_eq_none_iff.1 h'⟩
  | some i =>
    obtain ⟨u, hd, hu⟩ := lastDotIdx_drop h'
    by_cases hall : ((s.take i).all (· == '.')) = true
    · have hilen : i < s.length := lastDotIdx_lt_length h'
      have htl : (s.take i).length = i := by
        rw [List.length_take]
        omega
      have htr : s.take i = List.replicate i '.' := by
        rw [List.eq_replicate]
        exact ⟨htl, fun b hb => by simpa using List.all_eq_true.1 hall b hb⟩
      refine ⟨i + 1, u, ?_, hu⟩
      calc s = s.take i ++ s.drop i := (List.take_append_drop i s).symm
        _ = List.replicate i '.' ++ '.' :: u := by rw [htr, hd]
        _ = List.replicate (i + 1) '.' ++ u := by
            rw [List.replicate_succ', List.append_assoc]
            rfl
    · rw [splitext_eq_some h', if_neg hall] at h
      have h2 : s.drop i = [] := h
      rw [hd] at h2
      cases h2

theorem splitext_snd_structure {s : Name} (h : (splitext s).2 ≠ []) :
    ∃ u, (splitext s).2 = '.' :: u ∧ '.' ∉ u := by
  cases h' : lastDotIdx s with
  | none =>
    rw [splitext_of_not_mem (lastDotIdx_eq_none_iff.1 h')] at h
    exact absurd rfl h
  | some i =>
    obtain ⟨u, hd, hu⟩ := lastDotIdx_drop h'
    by_cases hall : ((s.take i).all (· == '.')) = true
    · rw [splitext_eq_some h', if_pos hall] at h
      exact absurd rfl h
    · rw [splitext_eq_some h', if_neg hall]
      exact ⟨u, hd, hu⟩

/-! ## The Name Generator is the identity on its own rejoined roots -/

theorem mem_excludedSub_or {char : Char} {s : Name} {x : Char}
    (hx : x ∈ excludedSub char s) : isExcluded x = false ∨ x = char := by
  rcases List.mem_map.1 hx with ⟨c, _, rfl⟩
  cases h : isExcluded c
  · simp [h]
  · simp [h]

theorem comps_chars_allowed {char : Char} {s p : Name}
    (hp : p ∈ sanitize_comps char s) : ∀ x ∈ p, isExcluded x = false := by
  intro x hx
  have h1 := List.mem_of_mem_filter hp
  have h2 := mem_of_mem_split_on _ _ p h1 x hx
  rcases mem_excludedSub_or (mem_of_mem_stripChar h2) with h | rfl
  · exact h
  · exact absurd hx (not_mem_of_mem_split_on _ _ p h1)

/-- Applying the sanitising pipeline to a rejoined list of clean components
gives back exactly those components. -/
theorem sanitize_comps_join_clean {char : Char} {L : List Name} (hne : L ≠ [])
    (hL : ∀ p ∈ L, p ≠ [] ∧ char ∉ p ∧ ∀ x ∈ p, isExcluded x = false) :
    sanitize_comps char (join_on char L) = L := by
  have hfree : ∀ p ∈ L, char ∉ p := fun p hp => (hL p hp).2.1
  have hsub : excludedSub char (join_on char L) = join_on char L := by
    unfold excludedSub
    have hc : ∀ x ∈ join_on char L, (if isExcluded x then char else x) = id x := by
      intro x hx
      rcases mem_join_on hx with rfl | ⟨p, hp, hxp⟩
      · simp
      · simp [(hL p hp).2.2 x hxp]
    rw [List.map_congr_left hc, List.map_id]
  obtain ⟨p, rest, rfl⟩ : ∃ p rest, L = p :: rest := by
    cases L with
    | nil => exact absurd rfl hne
    | cons p rest => exact ⟨p, rest, rfl⟩
  have hp := hL p (List.mem_cons_self _ _)
  have hh : (join_on char (p :: rest)).head? ≠ some char := by
    rw [join_on_head? rest hp.1]
    obtain ⟨y, ys, rfl⟩ : ∃ y ys, p = y :: ys := by
      cases hq : p with
      | nil => exact absurd rfl (hq ▸ hp.1)
      | cons y ys => exact ⟨y, ys, rfl⟩
    simp only [List.head?_cons, Ne, Option.some.injEq]
    exact fun hy => hp.2.1 (hy ▸ List.mem_cons_self _ _)
  have hl : (join_on char (p :: rest)).getLast? ≠ some char :=
    join_on_getLast?_ne _ (fun q hq => ⟨(hL q hq).1, (hL q hq).2.1⟩) (by simp)
  unfold sanitize_comps name_components
  rw [hsub, stripChar_id hh hl, split_on_join_on (by simp) hfree]
  refine List.filter_eq_self.2 ?_
  intro q hq
  simpa using (hL q hq).1

theorem join_on_snoc {c : Char} {q : Name} :
    ∀ {L : List Name}, L ≠ [] → join_on c (L ++ [q]) = join_on c L ++ c :: q := by
  intro L
  induction L with
  | nil => intro h; exact absurd rfl h
  | cons p L' ih =>
    intro _
    cases L' with
    | nil => rfl
    | cons r rs =>
      calc join_on c ((p :: r :: rs) ++ [q])
          = p ++ c :: join_on c ((r :: rs) ++ [q]) := rfl
        _ = p ++ c :: (join_on c (r :: rs) ++ c :: q) := by rw [ih (by simp)]
        _ = (p ++ c :: join_on c (r :: rs)) ++ c :: q := by simp

theorem split_on_append_cons {c : Char} {a t h : Name} {tt : List Name}
    (ha : c ∉ a) (ht : split_on c t = h :: tt) :
    split_on c (a ++ t) = (a ++ h) :: tt := by
  induction a with
  | nil => simpa using ht
  | cons x xs ih =>
    have hx : ¬(x == c) = true := by
      simp only [beq_iff_eq]
      rintro rfl
      exact ha (List.mem_cons_self _ _)
    rw [List.cons_append, split_on, if_neg hx,
      ih (fun hm => ha (List.mem_cons_of_mem x hm))]
    rfl

/-- Dropping leading copies of `char ≠ '.'` keeps the
"leading dots, then a dot-free tail" shape. -/
theorem dropWhile_dot_structure {char : Char} (hcd : char ≠ '.') {m : Nat} {u : Name}
    (hu : '.' ∉ u) :
    ∃ m2 u2, (List.replicate m '.' ++ u).dropWhile (· == char) =
      List.replicate m2 '.' ++ u2 ∧ '.' ∉ u2 := by
  cases m with
  | zero =>
    refine ⟨0, u.dropWhile (· == char), by simp, ?_⟩
    exact fun hm => hu ((List.dropWhile_sublist _).subset hm)
  | succ m =>
    refine ⟨m + 1, u, ?_, hu⟩
    rw [List.replicate_succ, List.cons_append, List.dropWhile_cons,
      if_neg (by simp [Ne.symm hcd])]

theorem stripChar_dot_structure {char : Char} (hcd : char ≠ '.') {m : Nat} {u : Name}
    (hu : '.' ∉ u) :
    ∃ m' u', stripChar char (List.replicate m '.' ++ u) =
      List.replicate m' '.' ++ u' ∧ '.' ∉ u' := by
  obtain ⟨m1, u1, hstep1, hu1⟩ := @dropWhile_dot_structure char hcd m u hu
  unfold stripChar
  rw [hstep1, List.reverse_append, List.reverse_replicate, List.dropWhile_append]
  split
  · -- all of u1.reverse is made of char: only the dots remain
    refine ⟨m1, [], ?_, by simp⟩
    rw [show List.dropWhile (· == char) (List.replicate m1 '.') = List.replicate m1 '.' from ?_]
    · rw [List.reverse_replicate]
      simp
    · cases m1 with
      | zero => rfl
      | succ k =>
        rw [List.replicate_succ, List.dropWhile_cons, if_neg (by simp [Ne.symm hcd])]
  · refine ⟨m1, (u1.reverse.dropWhile (· == char)).reverse, ?_, ?_⟩
    · rw [List.reverse_append, List.reverse_replicate]
    · intro hm
      rw [List.mem_reverse] at hm
      exact hu1 (List.mem_reverse.1 ((List.dropWhile_sublist _).subset hm))

/-- For `char ≠ '.'`, the rejoined root built from a
"leading dots, then dot-free" string has the same shape. -/
theorem join_comps_dot_structure {char : Char} (hcd : ¬char = '.') {m : Nat} {u : Name}
    (hu : '.' ∉ u) :
    ∃ m' w, join_on char (name_components char (List.replicate m '.' ++ u)) =
      List.replicate m' '.' ++ w ∧ '.' ∉ w := by
  cases m with
  | zero =>
    rw [show List.replicate 0 '.' ++ u = u from by simp]
    refine ⟨0, join_on char (name_components char u), by simp, ?_⟩
    intro hmem
    rcases mem_join_on hmem with h | ⟨p, hp, hdp⟩
    · exact hcd h.symm
    · have h1 := List.mem_of_mem_filter hp
      exact hu (mem_of_mem_split_on _ _ p h1 '.' hdp)
  | succ m =>
    obtain ⟨h, tt, ht⟩ : ∃ h tt, split_on char u = h :: tt := by
      cases hq : split_on char u with
      | nil => exact absurd hq (split_on_ne_nil char u)
      | cons h tt => exact ⟨h, tt, rfl⟩
    have hdot_a : char ∉ List.replicate (m + 1) '.' := by
      intro hm
      exact hcd (List.mem_replicate.1 hm).2
    have hsp := split_on_append_cons hdot_a ht
    have hhu : '.' ∉ h :=
      fun hm => hu (mem_of_mem_split_on _ _ h (ht ▸ List.mem_cons_self _ _) '.' hm)
    have htt : ∀ p ∈ tt, '.' ∉ p := fun p hp hm =>
      hu (mem_of_mem_split_on _ _ p (ht ▸ List.mem_cons_of_mem h hp) '.' hm)
    have hnc : name_components char (List.replicate (m + 1) '.' ++ u) =
        (List.replicate (m + 1) '.' ++ h) :: (tt.filter (fun comp => !comp.isEmpty)) := by
      unfold name_components
      rw [hsp, List.filter_cons_of_pos (by simp)]
    rw [hnc]
    cases hft : tt.filter (fun comp => !comp.isEmpty) with
    | nil => exact ⟨m + 1, h, rfl, hhu⟩
    | cons f fs =>
      refine ⟨m + 1, h ++ char :: join_on char (f :: fs), ?_, ?_⟩
      · rw [show join_on char ((List.replicate (m + 1) '.' ++ h) :: f :: fs) =
            (List.replicate (m + 1) '.' ++ h) ++ char :: join_on char (f :: fs) from rfl,
          List.append_assoc]
      · intro hm
        rcases List.mem_append.1 hm with hm | hm
        · exact hhu hm
        · rcases List.mem_cons.1 hm with rfl | hm
          · exact hcd rfl
          · rcases mem_join_on hm with h' | ⟨p, hp, hdp⟩
            · exact hcd h'.symm
            · exact htt p (List.mem_of_mem_filter (hft ▸ hp)) hdp

/-- With at least two components, the rejoined root contains a non-dot
character. -/
theorem join_comps_has_nonDot {char : Char} {s : Name}
    (h2 : 2 ≤ (sanitize_comps char s).length) :
    ∃ x ∈ join_on char (sanitize_comps char s), ¬x = '.' := by
  obtain ⟨p, q, rest, hc⟩ : ∃ p q rest, sanitize_comps char s = p :: q :: rest := by
    cases h : sanitize_comps char s with
    | nil => rw [h] at h2; simp at h2
    | cons p l =>
      cases l with
      | nil => rw [h] at h2; simp at h2
      | cons q rest => exact ⟨p, q, rest, rfl⟩
  by_cases hcd : char = '.'
  · have hp : p ≠ [] ∧ char ∉ p := mem_sanitize_comps (hc ▸ List.mem_cons_self _ _)
    obtain ⟨y, ys, rfl⟩ : ∃ y ys, p = y :: ys := by
      cases hq : p with
      | nil => exact absurd rfl (hq ▸ hp.1)
      | cons y ys => exact ⟨y, ys, rfl⟩
    refine ⟨y, ?_, ?_⟩
    · rw [hc]
      exact List.mem_append.2 (Or.inl (List.mem_cons_self _ _))
    · intro hyd
      exact hp.2 (hcd ▸ hyd ▸ List.mem_cons_self _ _)
  · refine ⟨char, ?_, hcd⟩
    rw [hc]
    exact List.mem_append.2 (Or.inr (List.mem_cons_self _ _))

/-- The Name Generator is idempotent: applying it twice gives the same
result as applying it once, for every basename, file/directory
classification and substitution character. -/
theorem generate_idempotent (name : Name) (isfile : Bool) (char : Char) :
    generate_new_pathname (generate_new_pathname name isfile char) isfile char =
      generate_new_pathname name isfile char := by
  by_cases hlen : (sanitize_comps char (sanitized_portion name isfile)).length < 2
  · have h := gen_of_few name isfile char hlen
    rw [h]
    exact h
  · have hcomps_ne : sanitize_comps char (sanitized_portion name isfile) ≠ [] := by
      intro h
      rw [h] at hlen
      exact hlen (by simp)
    have hall : ∀ p ∈ sanitize_comps char (sanitized_portion name isfile),
        p ≠ [] ∧ char ∉ p ∧ ∀ x ∈ p, isExcluded x = false := by
      intro p hp
      obtain ⟨h1, h2⟩ := mem_sanitize_comps hp
      exact ⟨h1, h2, comps_chars_allowed hp⟩
    have hjc := sanitize_comps_join_clean hcomps_ne hall
    have hgen := gen_of_many name isfile char hlen
    cases isfile with
    | false =>
      simp only [Bool.false_eq_true, if_false, List.append_nil] at hgen
      rw [hgen, gen_dir_eq, hjc, if_neg hlen]
    | true =>
      simp only [if_true] at hgen
      by_cases hext : (splitext name).2 = []
      · rw [hext, List.append_nil] at hgen
        have hroot : sanitized_portion name true = name := by
          have h6 := splitext_fst_append_snd name
          rw [hext, List.append_nil] at h6
          rw [sanitized_portion, if_pos rfl, h6]
        obtain ⟨M, U, hMU, hU⟩ := splitext_snd_eq_nil_structure hext
        by_cases hcd : char = '.'
        · have hco := List.dropLast_append_getLast hcomps_ne
          have hlen2 : 2 ≤ (sanitize_comps char (sanitized_portion name true)).length :=
            Nat.le_of_not_lt hlen
          have hinit_ne : (sanitize_comps char (sanitized_portion name true)).dropLast ≠ [] := by
            intro h0
            have := congrArg List.length h0
            rw [List.length_dropLast] at this
            simp at this
            omega
          have hallInit : ∀ p ∈ (sanitize_comps char (sanitized_portion name true)).dropLast,
              p ≠ [] ∧ char ∉ p ∧ ∀ x ∈ p, isExcluded x = false :=
            fun p hp => hall p ((List.dropLast_sublist _).subset hp)
          have hq := hall _ (List.getLast_mem hcomps_ne)
          have hr : join_on char (sanitize_comps char (sanitized_portion name true)) =
              join_on char (sanitize_comps char (sanitized_portion name true)).dropLast ++
                char :: (sanitize_comps char (sanitized_portion name true)).getLast hcomps_ne := by
            conv_lhs => rw [← hco]
            exact join_on_snoc hinit_ne
          obtain ⟨i1, irest, hi⟩ : ∃ i1 irest,
              (sanitize_comps char (sanitized_portion name true)).dropLast = i1 :: irest := by
            cases hq2 : (sanitize_comps char (sanitized_portion name true)).dropLast with
            | nil => exact absurd hq2 hinit_ne
            | cons i1 irest => exact ⟨i1, irest, rfl⟩
          have hi1 := hallInit i1 (hi ▸ List.mem_cons_self _ _)
          obtain ⟨y, ys, hy⟩ : ∃ y ys, i1 = y :: ys := by
            cases hq2 : i1 with
            | nil => exact absurd rfl (hq2 ▸ hi1.1)
            | cons y ys => exact ⟨y, ys, rfl⟩
          have hnd : ∃ x ∈ join_on char
              (sanitize_comps char (sanitized_portion name true)).dropLast, ¬x = '.' := by
            refine ⟨y, ?_, ?_⟩
            · apply List.mem_of_mem_head?
              rw [hi, join_on_head? irest hi1.1, hy]
              rfl
            · intro hyd
              -- y = '.' = char would put char inside a component
              exact hi1.2.1 (hcd ▸ hy ▸ hyd ▸ List.mem_cons_self _ _)
          have hq21 : '.' ∉ (sanitize_comps char (sanitized_portion name true)).getLast
              hcomps_ne := hcd ▸ hq.2.1
          have hr' : join_on char (sanitize_comps char (sanitized_portion name true)) =
              join_on char (sanitize_comps char (sanitized_portion name true)).dropLast ++
                '.' :: (sanitize_comps char (sanitized_portion name true)).getLast
                  hcomps_ne := by
            rw [hr]
            generalize (sanitize_comps char (sanitized_portion name true)).getLast hcomps_ne = q
            rw [hcd]
          have hsr := splitext_append_dot hnd hq21
          rw [← hr'] at hsr
          have hsr1 := congrArg Prod.fst hsr
          have hsr2 := congrArg Prod.snd hsr
          have hjcInit := sanitize_comps_join_clean hinit_ne hallInit
          rw [hgen, gen_file_eq, hsr1, hsr2, hjcInit]
          by_cases hinitlen :
              (sanitize_comps char (sanitized_portion name true)).dropLast.length < 2
          · rw [if_pos hinitlen]
          · rw [if_neg hinitlen]
            exact hr'.symm
        · have hname : sanitized_portion name true = List.replicate M '.' ++ U := by
            rw [hroot, hMU]
          have hsub : excludedSub char (List.replicate M '.' ++ U) =
              List.replicate M '.' ++ excludedSub char U := by
            unfold excludedSub
            rw [List.map_append, List.map_replicate,
              show (if isExcluded '.' then char else '.') = '.' from
                by rw [show isExcluded '.' = false from by decide]; simp]
          have hsubU : '.' ∉ excludedSub char U := by
            intro hmem
            rcases List.mem_map.1 hmem with ⟨c, hc, hfc⟩
            by_cases he : isExcluded c
            · rw [if_pos he] at hfc
              exact hcd hfc
            · rw [if_neg he] at hfc
              exact hU (hfc ▸ hc)
          obtain ⟨m2, u2, hstrip, hu2⟩ :=
            @stripChar_dot_structure char hcd M (excludedSub char U) hsubU
          obtain ⟨m3, w, hjoin, hw⟩ := @join_comps_dot_structure char hcd m2 u2 hu2
          have hchain : join_on char (sanitize_comps char (sanitized_portion name true)) =
              List.replicate m3 '.' ++ w := by
            unfold sanitize_comps
            rw [hname, hsub, hstrip, hjoin]
          have hsr : splitext (join_on char (sanitize_comps char
              (sanitized_portion name true))) =
              (join_on char (sanitize_comps char (sanitized_portion name true)), []) := by
            rw [hchain]
            exact splitext_replicate_dot hw
          have hsr1 := congrArg Prod.fst hsr
          have hsr2 := congrArg Prod.snd hsr
          rw [hgen, gen_file_eq, hsr1, hsr2, hjc, if_neg hlen, List.append_nil]
      · obtain ⟨eu, heu, heud⟩ := splitext_snd_structure hext
        have hnd := @join_comps_has_nonDot char (sanitized_portion name true)
          (Nat.le_of_not_lt hlen)
        have hsr : splitext (join_on char (sanitize_comps char (sanitized_portion name true))
            ++ (splitext name).2) =
            (join_on char (sanitize_comps char (sanitized_portion name true)),
              (splitext name).2) := by
          rw [heu]
          exact splitext_append_dot hnd heud
        have hsr1 := congrArg Prod.fst hsr
        have hsr2 := congrArg Prod.snd hsr
        rw [hgen, gen_file_eq, hsr1, hsr2, hjc, if_neg hlen]

/-- C7 (amended): a name of allowed characters whose sanitised portion
(file root, or whole directory name) has no leading, trailing or
consecutive occurrence of the substitution character is a fixed point of
the Name Generator; and the Name Generator is idempotent — applying it
twice always gives the same result as applying it once. -/
theorem generate_clean_fixed_and_idempotent :
    (∀ (name : Name) (isfile : Bool) (char : Char),
      (∀ x ∈ name, isExcluded x = false) →
      headNe char (sanitized_portion name isfile) = true →
      lastNe char (sanitized_portion name isfile) = true →
      noDouble char (sanitized_portion name isfile) = true →
      generate_new_pathname name isfile char = name) ∧
    (∀ (name : Name) (isfile : Bool) (char : Char),
      generate_new_pathname (generate_new_pathname name isfile char) isfile char =
        generate_new_pathname name isfile char) :=
  ⟨generate_fixed_point, generate_idempotent⟩

/-- Witness for `generate_clean_fixed_and_idempotent` at concrete names. -/
theorem generate_clean_fixed_and_idempotent_witness :
    generate_new_pathname "a_b.txt".data true '_' = "a_b.txt".data ∧
    generate_new_pathname (generate_new_pathname "a b.txt".data true '_') true '_' =
      generate_new_pathname "a b.txt".data true '_' :=
  ⟨generate_clean_fixed_and_idempotent.1 "a_b.txt".data true '_'
      (by decide) (by decide) (by decide) (by decide),
    generate_clean_fixed_and_idempotent.2 "a b.txt".data true '_'⟩

/-! ## C8: the per-character substitution refines the run-replacement of
the spec.  Both pipelines compute the maximal blocks of characters that
are kept (allowed and different from the substitution character). -/

/-- The maximal non-empty runs of characters satisfying `p`. -/
def blocks (p : Char → Bool) : Name → List Name
  | [] => []
  | x :: xs =>
    if p x then (x :: xs.takeWhile p) :: blocks p (xs.dropWhile p)
    else blocks p xs
termination_by s => s.length
decreasing_by
  · exact Nat.lt_succ_of_le (List.dropWhile_suffix p).sublist.length_le
  · exact Nat.lt_succ_self _

theorem comps_cons_self (char : Char) (t : Name) :
    name_components char (char :: t) = name_components char t := by
  unfold name_components
  rw [split_on, if_pos (by simp), List.filter_cons_of_neg (by simp)]

theorem split_on_append_self (char : Char) :
    ∀ (t : Name), split_on char (t ++ [char]) = split_on char t ++ [[]] := by
  intro t
  induction t with
  | nil => simp [split_on]
  | cons x xs ih =>
    rw [List.cons_append, split_on, split_on]
    by_cases hx : (x == char) = true
    · rw [if_pos hx, if_pos hx, ih]
      rfl
    · rw [if_neg hx, if_neg hx, ih]
      cases h : split_on char xs with
      | nil => exact absurd h (split_on_ne_nil char xs)
      | cons hh tt => rfl

theorem comps_append_self (char : Char) (t : Name) :
    name_components char (t ++ [char]) = name_components char t := by
  unfold name_components
  rw [split_on_append_self, List.filter_append]
  simp

theorem comps_append_replicate (char : Char) (t : Name) :
    ∀ (k : Nat), name_components char (t ++ List.replicate k char) =
      name_components char t := by
  intro k
  induction k generalizing t with
  | zero => simp
  | succ k ih =>
    rw [List.replicate_succ, show (char :: List.replicate k char : Name) =
      [char] ++ List.replicate k char from rfl, ← List.append_assoc, ih,
      comps_append_self]

theorem comps_dropWhile (char : Char) :
    ∀ (s : Name), name_components char (s.dropWhile (· == char)) =
      name_components char s := by
  intro s
  induction s with
  | nil => rfl
  | cons x xs ih =>
    rw [List.dropWhile_cons]
    by_cases hx : (x == char) = true
    · rw [if_pos hx, ih]
      have hxx : x = char := by simpa using hx
      rw [hxx]
      exact (comps_cons_self char xs).symm
    · rw [if_neg hx]

/-- Trimming the substitution character changes neither the non-empty
components. -/
theorem comps_stripChar (char : Char) (s : Name) :
    name_components char (stripChar char s) = name_components char s := by
  unfold stripChar
  have h1 : name_components char (s.dropWhile (· == char)) = name_components char s :=
    comps_dropWhile char s
  set y := s.dropWhile (· == char) with hy
  have hdec : y.reverse = y.reverse.takeWhile (· == char) ++ y.reverse.dropWhile (· == char) :=
    (List.takeWhile_append_dropWhile _ _).symm
  have htk : y.reverse.takeWhile (· == char) =
      List.replicate (y.reverse.takeWhile (· == char)).length char := by
    rw [List.eq_replicate]
    exact ⟨rfl, fun b hb => by simpa using List.mem_takeWhile_imp hb⟩
  have hyd : y = (y.reverse.dropWhile (· == char)).reverse ++
      List.replicate (y.reverse.takeWhile (· == char)).length char := by
    conv_lhs => rw [← List.reverse_reverse y]
    rw [← htk]
    conv_lhs => rw [hdec]
    rw [List.reverse_append]
    congr 1
    rw [htk, List.reverse_replicate, ← htk]
  calc name_components char (y.reverse.dropWhile (· == char)).reverse
      = name_components char ((y.reverse.dropWhile (· == char)).reverse ++
          List.replicate (y.reverse.takeWhile (· == char)).length char) :=
        (comps_append_replicate char _ _).symm
    _ = name_components char y := by rw [← hyd]
    _ = name_components char s := h1

/-- Characters kept by the splitting step: everything except the
substitution character. -/
def keepNe (char : Char) (x : Char) : Bool := !(x == char)

/-- Characters that survive both substitution and splitting: allowed and
different from the substitution character. -/
def keepAll (char : Char) (x : Char) : Bool := !isExcluded x && !(x == char)

theorem blocks_nil (p : Char → Bool) : blocks p [] = [] := by
  rw [blocks]

theorem blocks_cons (p : Char → Bool) (x : Char) (xs : Name) :
    blocks p (x :: xs) =
      if p x then (x :: xs.takeWhile p) :: blocks p (xs.dropWhile p)
      else blocks p xs := by
  rw [blocks]

theorem dropWhile_head_false {p : Char → Bool} :
    ∀ {l : Name} {y : Char} {ys : Name}, l.dropWhile p = y :: ys → p y = false := by
  intro l
  induction l with
  | nil => intro y ys h; cases h
  | cons a as ih =>
    intro y ys h
    rw [List.dropWhile_cons] at h
    split at h
    · exact ih h
    · rename_i ha
      obtain ⟨rfl, rfl⟩ : a = y ∧ as = ys := by
        injection h with h1 h2
        exact ⟨h1, h2⟩
      simpa using ha

/-- The sanitising split-and-filter equals the maximal kept blocks. -/
theorem comps_eq_blocks (char : Char) :
    ∀ (s : Name), name_components char s = blocks (keepNe char) s := by
  have H : ∀ (n : Nat) (s : Name), s.length ≤ n →
      name_components char s = blocks (keepNe char) s := by
    intro n
    induction n with
    | zero =>
      intro s hlen
      cases s with
      | nil => rw [blocks_nil]; rfl
      | cons x xs => simp at hlen
    | succ n ih =>
      intro s hlen
      cases s with
      | nil => rw [blocks_nil]; rfl
      | cons x xs =>
        by_cases hx : (x == char) = true
        · have hxx : x = char := by simpa using hx
          rw [hxx, comps_cons_self, blocks_cons, if_neg (by simp [keepNe])]
          exact ih xs (by simp at hlen; omega)
        · have hpx : keepNe char x = true := by simp [keepNe, hx]
          cases hdw : xs.dropWhile (keepNe char) with
          | nil =>
            have hnx : char ∉ x :: xs := by
              intro hm
              rcases List.mem_cons.1 hm with heq | hm
              · rw [heq] at hx
                simp at hx
              · have := List.dropWhile_eq_nil_iff.1 hdw char hm
                simp [keepNe] at this
            have hcomp : name_components char (x :: xs) = [x :: xs] := by
              unfold name_components
              rw [split_on_of_not_mem hnx, List.filter_cons_of_pos (by simp)]
              rfl
            have htw : xs.takeWhile (keepNe char) = xs := by
              conv_rhs => rw [← List.takeWhile_append_dropWhile (keepNe char) xs]
              rw [hdw, List.append_nil]
            rw [hcomp, blocks_cons, if_pos hpx, hdw, htw, blocks_nil]
          | cons c0 rest =>
            have hc0 : c0 = char := by
              have h := dropWhile_head_false hdw
              simpa [keepNe] using h
            have hxs_dec : xs = xs.takeWhile (keepNe char) ++ char :: rest := by
              conv_lhs => rw [← List.takeWhile_append_dropWhile (keepNe char) xs]
              rw [hdw, hc0]
            have hfree : char ∉ x :: xs.takeWhile (keepNe char) := by
              intro hm
              rcases List.mem_cons.1 hm with heq | hm
              · rw [← heq] at hx
                simp at hx
              · have := List.mem_takeWhile_imp hm
                simp [keepNe] at this
            have hsplit : split_on char (x :: xs) =
                (x :: xs.takeWhile (keepNe char)) :: split_on char rest := by
              conv_lhs => rw [show x :: xs =
                (x :: xs.takeWhile (keepNe char)) ++ char :: rest from by
                  rw [List.cons_append, ← hxs_dec]]
              exact split_on_append_sep hfree rest
            have hlrest : rest.length ≤ n := by
              have h1 : (xs.dropWhile (keepNe char)).length ≤ xs.length :=
                (List.dropWhile_sublist _).length_le
              rw [hdw] at h1
              simp at hlen h1
              omega
            unfold name_components
            rw [hsplit, List.filter_cons_of_pos (by simp), blocks_cons, if_pos hpx,
              hdw, hc0, blocks_cons, if_neg (by simp [keepNe])]
            have := ih rest hlrest
            unfold name_components at this
            rw [this]
  exact fun s => H s.length s (le_refl _)

theorem runSub_nil (char : Char) : runSub char [] = [] := by
  rw [runSub]

theorem runSub_cons (char c : Char) (cs : Name) :
    runSub char (c :: cs) =
      if isExcluded c then char :: runSub char (cs.dropWhile isExcluded)
      else c :: runSub char cs := by
  rw [runSub]

theorem takeWhile_excludedSub (char : Char) :
    ∀ (xs : Name), (excludedSub char xs).takeWhile (keepNe char) =
      xs.takeWhile (keepAll char) := by
  intro xs
  induction xs with
  | nil => rfl
  | cons y ys ih =>
    rw [show excludedSub char (y :: ys) =
      (if isExcluded y then char else y) :: excludedSub char ys from rfl,
      List.takeWhile_cons, List.takeWhile_cons]
    by_cases he : isExcluded y
    · rw [if_pos he, if_neg (by simp [keepNe]), if_neg (by simp [keepAll, he])]
    · rw [if_neg he]
      by_cases hc : (y == char) = true
      · rw [if_neg (by simp [keepNe, hc]), if_neg (by simp [keepAll, hc])]
      · rw [if_pos (by simp [keepNe, hc]), if_pos (by simp [keepAll, he, hc]), ih]

theorem dropWhile_excludedSub (char : Char) :
    ∀ (xs : Name), (excludedSub char xs).dropWhile (keepNe char) =
      excludedSub char (xs.dropWhile (keepAll char)) := by
  intro xs
  induction xs with
  | nil => rfl
  | cons y ys ih =>
    rw [show excludedSub char (y :: ys) =
      (if isExcluded y then char else y) :: excludedSub char ys from rfl,
      List.dropWhile_cons, List.dropWhile_cons]
    by_cases he : isExcluded y
    · rw [if_pos he, if_neg (by simp [keepNe]), if_neg (by simp [keepAll, he])]
      rw [show excludedSub char (y :: ys) =
        (if isExcluded y then char else y) :: excludedSub char ys from rfl, if_pos he]
    · rw [if_neg he]
      by_cases hc : (y == char) = true
      · rw [if_neg (by simp [keepNe, hc]), if_neg (by simp [keepAll, hc])]
        rw [show excludedSub char (y :: ys) =
          (if isExcluded y then char else y) :: excludedSub char ys from rfl, if_neg he]
      · rw [if_pos (by simp [keepNe, hc]), if_pos (by simp [keepAll, he, hc]), ih]

theorem blocks_excludedSub (char : Char) :
    ∀ (s : Name), blocks (keepNe char) (excludedSub char s) = blocks (keepAll char) s := by
  have H : ∀ (n : Nat) (s : Name), s.length ≤ n →
      blocks (keepNe char) (excludedSub char s) = blocks (keepAll char) s := by
    intro n
    induction n with
    | zero =>
      intro s hlen
      cases s with
      | nil => rw [show excludedSub char [] = [] from rfl, blocks_nil, blocks_nil]
      | cons y ys => simp at hlen
    | succ n ih =>
      intro s hlen
      cases s with
      | nil => rw [show excludedSub char [] = [] from rfl, blocks_nil, blocks_nil]
      | cons y ys =>
        rw [show excludedSub char (y :: ys) =
          (if isExcluded y then char else y) :: excludedSub char ys from rfl,
          blocks_cons, blocks_cons]
        have hys : ys.length ≤ n := by simp at hlen; omega
        by_cases he : isExcluded y
        · rw [if_pos he, if_neg (by simp [keepNe]), if_neg (by simp [keepAll, he])]
          exact ih ys hys
        · rw [if_neg he]
          by_cases hc : (y == char) = true
          · rw [if_neg (by simp [keepNe, hc]), if_neg (by simp [keepAll, hc])]
            exact ih ys hys
          · rw [if_pos (by simp [keepNe, hc]), if_pos (by simp [keepAll, he, hc]),
              takeWhile_excludedSub, dropWhile_excludedSub]
            congr 1
            exact ih (ys.dropWhile (keepAll char))
              (le_trans (List.dropWhile_sublist _).length_le hys)
  exact fun s => H s.length s (le_refl _)

theorem takeWhile_runSub (char : Char) :
    ∀ (xs : Name), (runSub char xs).takeWhile (keepNe char) =
      xs.takeWhile (keepAll char) := by
  intro xs
  induction xs with
  | nil => simp [runSub_nil]
  | cons y ys ih =>
    rw [runSub_cons, List.takeWhile_cons]
    by_cases he : isExcluded y
    · rw [if_pos he, List.takeWhile_cons, if_neg (by simp [keepNe]),
        if_neg (by simp [keepAll, he])]
    · rw [if_neg he, List.takeWhile_cons]
      by_cases hc : (y == char) = true
      · rw [if_neg (by simp [keepNe, hc]), if_neg (by simp [keepAll, hc])]
      · rw [if_pos (by simp [keepNe, hc]), if_pos (by simp [keepAll, he, hc]), ih]

theorem dropWhile_runSub (char : Char) :
    ∀ (xs : Name), (runSub char xs).dropWhile (keepNe char) =
      runSub char (xs.dropWhile (keepAll char)) := by
  intro xs
  induction xs with
  | nil => simp [runSub_nil]
  | cons y ys ih =>
    rw [runSub_cons]
    by_cases he : isExcluded y
    · rw [if_pos he, List.dropWhile_cons, if_neg (by simp [keepNe]),
        List.dropWhile_cons, if_neg (by simp [keepAll, he]), runSub_cons, if_pos he]
    · rw [if_neg he]
      by_cases hc : (y == char) = true
      · rw [List.dropWhile_cons, if_neg (by simp [keepNe, hc]),
          List.dropWhile_cons, if_neg (by simp [keepAll, hc]), runSub_cons, if_neg he]
      · rw [List.dropWhile_cons, if_pos (by simp [keepNe, hc]),
          List.dropWhile_cons, if_pos (by simp [keepAll, he, hc]), ih]

theorem blocks_keepAll_dropWhile_excluded (char : Char) :
    ∀ (ys : Name), blocks (keepAll char) (ys.dropWhile isExcluded) =
      blocks (keepAll char) ys := by
  intro ys
  induction ys with
  | nil => rfl
  | cons y ys ih =>
    rw [List.dropWhile_cons]
    by_cases he : isExcluded y
    · rw [if_pos he, ih, blocks_cons, if_neg (by simp [keepAll, he])]
    · rw [if_neg he]

theorem blocks_runSub (char : Char) :
    ∀ (s : Name), blocks (keepNe char) (runSub char s) = blocks (keepAll char) s := by
  have H : ∀ (n : Nat) (s : Name), s.length ≤ n →
      blocks (keepNe char) (runSub char s) = blocks (keepAll char) s := by
    intro n
    induction n with
    | zero =>
      intro s hlen
      cases s with
      | nil => rw [runSub_nil, blocks_nil, blocks_nil]
      | cons y ys => simp at hlen
    | succ n ih =>
      intro s hlen
      cases s with
      | nil => rw [runSub_nil, blocks_nil, blocks_nil]
      | cons y ys =>
        have hys : ys.length ≤ n := by simp at hlen; omega
        rw [runSub_cons]
        by_cases he : isExcluded y
        · rw [if_pos he, blocks_cons, if_neg (by simp [keepNe]),
            ih (ys.dropWhile isExcluded) (le_trans (List.dropWhile_sublist _).length_le hys),
            blocks_keepAll_dropWhile_excluded, blocks_cons,
            if_neg (by simp [keepAll, he])]
        · rw [if_neg he, blocks_cons, blocks_cons]
          by_cases hc : (y == char) = true
          · rw [if_neg (by simp [keepNe, hc]), if_neg (by simp [keepAll, hc])]
            exact ih ys hys
          · rw [if_pos (by simp [keepNe, hc]), if_pos (by simp [keepAll, he, hc]),
              takeWhile_runSub, dropWhile_runSub]
            congr 1
            exact ih (ys.dropWhile (keepAll char))
              (le_trans (List.dropWhile_sublist _).length_le hys)
  exact fun s => H s.length s (le_refl _)

/-- The two substitution disciplines produce identical component lists. -/
theorem sanitize_comps_eq_runSub (char : Char) (s : Name) :
    sanitize_comps char s = name_components char (stripChar char (runSub char s)) := by
  unfold sanitize_comps
  rw [comps_stripChar, comps_stripChar, comps_eq_blocks, comps_eq_blocks,
    blocks_excludedSub, blocks_runSub]

theorem genspec_file_eq (name : Name) (char : Char) :
    generate_spec name true char =
      if (name_components char (stripChar char (runSub char (splitext name).1))).length < 2
      then name
      else join_on char (name_components char (stripChar char
        (runSub char (splitext name).1))) ++ (splitext name).2 := rfl

theorem genspec_dir_eq (name : Name) (char : Char) :
    generate_spec name false char =
      if (name_components char (stripChar char (runSub char name))).length < 2 then name
      else join_on char (name_components char (stripChar char (runSub char name))) := rfl

/-- C8: the code's per-character substitution, followed by the trim,
split, filter-empty and rejoin steps, produces the same final candidate as
the spec's replacement of every maximal run of disallowed characters with
a single `char` followed by the same steps. -/
theorem generate_eq_generate_spec (name : Name) (isfile : Bool) (char : Char) :
    generate_new_pathname name isfile char = generate_spec name isfile char := by
  cases isfile with
  | false =>
    rw [gen_dir_eq, genspec_dir_eq, ← sanitize_comps_eq_runSub]
  | true =>
    rw [gen_file_eq, genspec_file_eq, ← sanitize_comps_eq_runSub]

/-! ## C4/C5: the validation and error-policy surface of `rename_file` -/

theorem rename_file_nil_eq (files : List FPath) (recursive verbose suppress : Bool)
    (fs : FSTree) :
    rename_file [] files recursive verbose suppress fs =
      (if !suppress then .err (.valueError "must be a single character".data) fs
       else .exited 1 fs) := rfl

theorem rename_file_pair_eq (c1 c2 : Char) (rest : Name) (files : List FPath)
    (recursive verbose suppress : Bool) (fs : FSTree) :
    rename_file (c1 :: c2 :: rest) files recursive verbose suppress fs =
      (if !suppress then .err (.valueError "must be a single character".data) fs
       else .exited 1 fs) := rfl

theorem rename_file_single_eq (c : Char) (files : List FPath)
    (recursive verbose suppress : Bool) (fs : FSTree) :
    rename_file [c] files recursive verbose suppress fs =
      (if isExcluded c then
        if !suppress then .err (.valueError "special character cannot be used".data) fs
        else .exited 1 fs
      else
        match check_paths fs files with
        | some p =>
          if !suppress then .err (.fileNotFoundError p) fs
          else .exited 1 fs
        | none => process_paths fs files c recursive verbose suppress) := rfl

theorem check_paths_some {fs : FSTree} :
    ∀ {files : List FPath} {p : FPath}, check_paths fs files = some p →
      existsPath fs p = false ∧ p ∈ files := by
  intro files
  induction files with
  | nil => intro p h; cases h
  | cons q rest ih =>
    intro p h
    rw [check_paths] at h
    split at h
    · obtain ⟨h1, h2⟩ := ih h
      exact ⟨h1, List.mem_cons_of_mem q h2⟩
    · rename_i hq
      obtain rfl : q = p := by injection h
      exact ⟨by simpa using hq, List.mem_cons_self _ _⟩

/-- C5: with `suppress_errors` false, a substitution character of the
wrong length or outside the allowed set, or a missing input path, makes
`rename_file` raise the corresponding error with the filesystem untouched;
the character checks precede any filesystem access, and the existence of
all inputs is validated up front, before any rename. -/
theorem rename_file_validation (char : Name) (files : List FPath)
    (recursive verbose : Bool) (fs : FSTree) :
    (char.length ≠ 1 →
      rename_file char files recursive verbose false fs =
        .err (.valueError "must be a single character".data) fs) ∧
    (∀ c, char = [c] → isExcluded c = true →
      rename_file char files recursive verbose false fs =
        .err (.valueError "special character cannot be used".data) fs) ∧
    (∀ c, char = [c] → isExcluded c = false → ∀ p, check_paths fs files = some p →
      rename_file char files recursive verbose false fs =
        .err (.fileNotFoundError p) fs ∧ existsPath fs p = false ∧ p ∈ files) := by
  refine ⟨?_, ?_, ?_⟩
  · intro hlen
    cases char with
    | nil => rw [rename_file_nil_eq]; rfl
    | cons c1 cs =>
      cases cs with
      | nil => exact absurd rfl hlen
      | cons c2 rest => rw [rename_file_pair_eq]; rfl
  · rintro c rfl hc
    rw [rename_file_single_eq, if_pos hc]
    rfl
  · rintro c rfl hc p hp
    obtain ⟨h1, h2⟩ := check_paths_some hp
    refine ⟨?_, h1, h2⟩
    rw [rename_file_single_eq, if_neg (by simp [hc]), hp]
    rfl

/-- Witness for `rename_file_validation`: a two-character string, the
excluded character `'*'`, and a missing path, on an empty root. -/
theorem rename_file_validation_witness :
    (("ab".data : Name).length ≠ 1 ∧
      rename_file "ab".data [] false true false (FSTree.dir [] .nil) =
        .err (.valueError "must be a single character".data) (FSTree.dir [] .nil)) ∧
    (isExcluded '*' = true ∧
      rename_file "*".data [] false true false (FSTree.dir [] .nil) =
        .err (.valueError "special character cannot be used".data) (FSTree.dir [] .nil)) ∧
    (rename_file "_".data [["x".data]] false true false (FSTree.dir [] .nil) =
        .err (.fileNotFoundError ["x".data]) (FSTree.dir [] .nil) ∧
      existsPath (FSTree.dir [] .nil) ["x".data] = false ∧
      ["x".data] ∈ [["x".data]]) :=
  ⟨⟨by decide, (rename_file_validation "ab".data [] false true _).1 (by decide)⟩,
   ⟨by decide, (rename_file_validation "*".data [] false true _).2.1 '*' rfl (by decide)⟩,
   (rename_file_validation "_".data [["x".data]] false true _).2.2 '_' rfl (by decide)
     ["x".data] (by rfl)⟩

theorem sanitize_no_err_of_suppress (fs : FSTree) (fp : FPath) (char : Char)
    (v : Bool) : ∀ e st, sanitize_file_name fs fp char v true ≠ .err e st := by
  intro e st
  cases hl : fp.getLast? with
  | none =>
    unfold sanitize_file_name
    rw [hl]
    simp
  | some old =>
    rw [sanitize_eq fs fp char v true old hl]
    split
    · simp
    · split <;> simp

theorem sanitize_children_no_err (char : Char) (v : Bool) :
    ∀ (children : List FPath) (fs : FSTree) (e : RunErr) (st : FSTree),
      sanitize_children fs children char v true ≠ .err e st := by
  intro children
  induction children with
  | nil => intro fs e st h; cases h
  | cons c rest ih =>
    intro fs e st h
    rw [sanitize_children] at h
    cases hs : sanitize_file_name fs c char v true with
    | ok fs' =>
      rw [hs] at h
      exact ih fs' e st h
    | err e' st' => exact sanitize_no_err_of_suppress fs c char v e' st' hs
    | exited n st' =>
      rw [hs] at h
      cases h

theorem process_path_no_err (char : Char) (recursive v : Bool) (fs : FSTree)
    (p : FPath) : ∀ e st, process_path fs p char recursive v true ≠ .err e st := by
  intro e st
  unfold process_path
  split
  · exact sanitize_no_err_of_suppress fs p char v e st
  · split
    · split
      · intro h
        cases hs : sanitize_children fs
            (get_children p ((subtreeAt fs p).getD (.dir [] .nil))) char v true with
        | ok fs' =>
          rw [hs] at h
          exact sanitize_no_err_of_suppress fs' p char v e st h
        | err e' st' => exact sanitize_children_no_err char v _ fs e' st' hs
        | exited n st' =>
          rw [hs] at h
          cases h
      · exact sanitize_no_err_of_suppress fs p char v e st
    · simp

theorem process_paths_no_err (char : Char) (recursive v : Bool) :
    ∀ (paths : List FPath) (fs : FSTree) (e : RunErr) (st : FSTree),
      process_paths fs paths char recursive v true ≠ .err e st := by
  intro paths
  induction paths with
  | nil => intro fs e st h; cases h
  | cons p rest ih =>
    intro fs e st h
    rw [process_paths] at h
    cases hs : process_path fs p char recursive v true with
    | ok fs' =>
      rw [hs] at h
      exact ih fs' e st h
    | err e' st' => exact process_path_no_err char recursive v fs p e' st' hs
    | exited n st' =>
      rw [hs] at h
      cases h

/-- Counterexample to C4 as stated: with `suppress_errors` set, the
collision on renaming `"a 1.txt"` next to `"a_1.txt"` is silently skipped
and the run completes normally — the process does **not** exit with
status 1. -/
theorem suppress_collision_no_exit_cex :
    (((listdir fsColl fpColl.dropLast).getD []).erase "a 1.txt".data).contains
      (generate_new_pathname "a 1.txt".data (isfilePath fsColl fpColl) '_') = true ∧
    rename_file "_".data [fpColl] false false true fsColl = .ok fsColl :=
  ⟨by decide, by rfl⟩

/-- C4 (amended): with `suppress_errors` set, each validation error (bad
substitution character, missing input path) silently terminates the
process with exit status 1; a rename-collision error is instead silently
skipped, leaving the filesystem unchanged for that entry while the run
continues; and no exception is ever raised. -/
theorem suppress_errors_policy :
    (∀ (char : Name) (files : List FPath) (recursive verbose : Bool) (fs : FSTree),
      char.length ≠ 1 →
      rename_file char files recursive verbose true fs = .exited 1 fs) ∧
    (∀ (c : Char) (files : List FPath) (recursive verbose : Bool) (fs : FSTree),
      isExcluded c = true →
      rename_file [c] files recursive verbose true fs = .exited 1 fs) ∧
    (∀ (c : Char) (files : List FPath) (recursive verbose : Bool) (fs : FSTree)
      (p : FPath), isExcluded c = false → check_paths fs files = some p →
      rename_file [c] files recursive verbose true fs = .exited 1 fs) ∧
    (∀ (fs : FSTree) (fp : FPath) (char : Char) (verbose : Bool) (old : Name),
      fp.getLast? = some old →
      (((listdir fs fp.dropLast).getD []).erase old).contains
        (generate_new_pathname old (isfilePath fs fp) char) = true →
      sanitize_file_name fs fp char verbose true = .ok fs) ∧
    (∀ (char : Name) (files : List FPath) (recursive verbose : Bool) (fs : FSTree)
      (e : RunErr) (st : FSTree),
      rename_file char files recursive verbose true fs ≠ .err e st) := by
  refine ⟨?_, ?_, ?_, ?_, ?_⟩
  · intro char files recursive verbose fs hlen
    cases char with
    | nil => rw [rename_file_nil_eq]; rfl
    | cons c1 cs =>
      cases cs with
      | nil => exact absurd rfl hlen
      | cons c2 rest => rw [rename_file_pair_eq]; rfl
  · intro c files recursive verbose fs hc
    rw [rename_file_single_eq, if_pos hc]
    rfl
  · intro c files recursive verbose fs p hc hp
    rw [rename_file_single_eq, if_neg (by simp [hc]), hp]
    rfl
  · intro fs fp char verbose old h hcoll
    rw [sanitize_eq fs fp char verbose true old h, if_pos hcoll]
    rfl
  · intro char files recursive verbose fs e st
    cases char with
    | nil => rw [rename_file_nil_eq]; simp
    | cons c1 cs =>
      cases cs with
      | nil =>
        rw [rename_file_single_eq]
        split
        · simp
        · split
          · simp
          · exact process_paths_no_err c1 recursive verbose files fs e st
      | cons c2 rest => rw [rename_file_pair_eq]; simp

/-- Witness for `suppress_errors_policy` at concrete inputs. -/
theorem suppress_errors_policy_witness :
    rename_file "ab".data [] false true true (FSTree.dir [] .nil) =
      .exited 1 (FSTree.dir [] .nil) ∧
    rename_file "*".data [] false true true (FSTree.dir [] .nil) =
      .exited 1 (FSTree.dir [] .nil) ∧
    rename_file "_".data [["x".data]] false true true (FSTree.dir [] .nil) =
      .exited 1 (FSTree.dir [] .nil) ∧
    sanitize_file_name fsColl fpColl '_' true true = .ok fsColl ∧
    rename_file "_".data [fpColl] false false true fsColl ≠
      .err (.fileRenameError "a_1.txt".data) fsColl :=
  ⟨suppress_errors_policy.1 "ab".data [] false true _ (by decide),
   suppress_errors_policy.2.1 '*' [] false true _ (by decide),
   suppress_errors_policy.2.2.1 '_' [["x".data]] false true _ ["x".data]
     (by decide) (by rfl),
   suppress_errors_policy.2.2.2.1 fsColl fpColl '_' true "a 1.txt".data rfl (by decide),
   suppress_errors_policy.2.2.2.2 "_".data [fpColl] false false fsColl
     (.fileRenameError "a_1.txt".data) fsColl⟩

/-! ## C1: deepest-first traversal order -/

/-- `a` is a strict ancestor of `b`: `a` is a proper prefix of the path
`b`. -/
def isAncestor : FPath → FPath → Bool
  | [], [] => false
  | [], _ :: _ => true
  | _ :: _, [] => false
  | a :: as, b :: bs => a == b && isAncestor as bs

theorem isAncestor_iff : ∀ {a b : FPath},
    isAncestor a b = true ↔ ∃ c, c ≠ [] ∧ b = a ++ c := by
  intro a
  induction a with
  | nil =>
    intro b
    cases b with
    | nil => simp [isAncestor]
    | cons x bs =>
      rw [show isAncestor [] (x :: bs) = true from rfl]
      simp only [true_iff]
      exact ⟨x :: bs, by simp, by simp⟩
  | cons x as ih =>
    intro b
    cases b with
    | nil => simp [isAncestor]
    | cons y bs =>
      rw [show isAncestor (x :: as) (y :: bs) = ((x == y) && isAncestor as bs) from rfl]
      constructor
      · intro h
        rw [Bool.and_eq_true] at h
        obtain ⟨h1, h2⟩ := h
        obtain ⟨c, hc, rfl⟩ := ih.1 h2
        exact ⟨c, hc, by simp [show x = y from by simpa using h1]⟩
      · rintro ⟨c, hc, hbc⟩
        rw [List.cons_append] at hbc
        injection hbc with hxy hrest
        rw [Bool.and_eq_true]
        exact ⟨by simp [hxy], ih.2 ⟨c, hc, hrest⟩⟩

theorem isAncestor_length {a b : FPath} (h : isAncestor a b = true) :
    a.length < b.length := by
  obtain ⟨c, hc, rfl⟩ := isAncestor_iff.1 h
  have : 0 < c.length := List.length_pos.2 hc
  simp
  omega

theorem isAncestor_eq_false_of_le {a b : FPath} (h : b.length ≤ a.length) :
    isAncestor a b = false := by
  cases hq : isAncestor a b with
  | false => rfl
  | true => exact absurd (isAncestor_length hq) (by omega)

theorem isAncestor_head_eq {p : FPath} {x y : Name} {c e : FPath}
    (h : isAncestor (p ++ x :: c) (p ++ y :: e) = true) : x = y := by
  obtain ⟨d, _, hd⟩ := isAncestor_iff.1 h
  rw [List.append_assoc] at hd
  have := List.append_cancel_left hd
  rw [List.cons_append] at this
  injection this with h1 _
  exact h1.symm

theorem get_children_eq (p : FPath) (fs : List Name) (subs : Forest) :
    get_children p (.dir fs subs) =
      forest_children p subs ++
        (fs.map (fun fn => p ++ [fn]) ++ subs.names.map (fun sn => p ++ [sn])) := by
  unfold get_children forest_children
  rw [walk, List.flatMap_append]
  congr 1
  simp [walkEntries]

theorem forest_children_nil (p : FPath) : forest_children p .nil = [] := by
  unfold forest_children
  rw [walkForest]
  rfl

theorem forest_children_cons (p : FPath) (n : Name) (t : FSTree) (rest : Forest) :
    forest_children p (.cons n t rest) =
      get_children (p ++ [n]) t ++ forest_children p rest := by
  unfold forest_children get_children
  rw [walkForest, List.flatMap_append]

mutual
theorem mem_get_children : ∀ (t : FSTree) (p b : FPath),
    b ∈ get_children p t → ∃ x c, b = p ++ x :: c
  | .dir fs subs, p, b, hb => by
    rw [get_children_eq] at hb
    rcases List.mem_append.1 hb with h | h
    · obtain ⟨n, x, c, _, hb⟩ := mem_forest_children subs p b h
      exact ⟨n, x :: c, hb⟩
    · rcases List.mem_append.1 h with h | h
      · rcases List.mem_map.1 h with ⟨fn, _, rfl⟩
        exact ⟨fn, [], rfl⟩
      · rcases List.mem_map.1 h with ⟨sn, _, rfl⟩
        exact ⟨sn, [], rfl⟩
theorem mem_forest_children : ∀ (f : Forest) (p b : FPath),
    b ∈ forest_children p f → ∃ n x c, n ∈ f.names ∧ b = p ++ n :: x :: c
  | .nil, p, b, hb => by
    rw [forest_children_nil] at hb
    cases hb
  | .cons n t rest, p, b, hb => by
    rw [forest_children_cons] at hb
    rcases List.mem_append.1 hb with h | h
    · obtain ⟨x, c, hb⟩ := mem_get_children t (p ++ [n]) b h
      refine ⟨n, x, c, ?_, by rw [hb]; simp⟩
      rw [Forest.names]
      exact List.mem_cons_self _ _
    · obtain ⟨n', x, c, hn', hb⟩ := mem_forest_children rest p b h
      refine ⟨n', x, c, ?_, hb⟩
      rw [Forest.names]
      exact List.mem_cons_of_mem n hn'
end

theorem nodupB_not_contains {n : Name} {ns : List Name}
    (h : nodupB (n :: ns) = true) : n ∉ ns ∧ nodupB ns = true := by
  rw [nodupB, Bool.and_eq_true] at h
  obtain ⟨h1, h2⟩ := h
  refine ⟨?_, h2⟩
  intro hm
  rw [Bool.not_eq_true'] at h1
  simp [hm] at h1

theorem isAncestor_irrefl (a : FPath) : isAncestor a a = false :=
  isAncestor_eq_false_of_le (le_refl _)

mutual
theorem pairwise_get_children : ∀ (t : FSTree) (p : FPath), wfT t = true →
    List.Pairwise (fun a b => isAncestor a b = false) (get_children p t)
  | .dir fs subs, p, hw => by
    rw [wfT, Bool.and_eq_true] at hw
    obtain ⟨hnd, hwf⟩ := hw
    rw [get_children_eq, List.pairwise_append]
    refine ⟨pairwise_forest_children subs p hwf hnd, ?_, ?_⟩
    · apply List.pairwise_of_forall_mem_list
      intro a ha b hb
      have hlb : b.length = p.length + 1 := by
        rcases List.mem_append.1 hb with h | h <;>
          rcases List.mem_map.1 h with ⟨z, _, rfl⟩ <;> simp
      have hla : a.length = p.length + 1 := by
        rcases List.mem_append.1 ha with h | h <;>
          rcases List.mem_map.1 h with ⟨z, _, rfl⟩ <;> simp
      exact isAncestor_eq_false_of_le (by omega)
    · intro a ha b hb
      obtain ⟨n, x, c, _, rfl⟩ := mem_forest_children subs p a ha
      have hlb : b.length = p.length + 1 := by
        rcases List.mem_append.1 hb with h | h <;>
          rcases List.mem_map.1 h with ⟨z, _, rfl⟩ <;> simp
      refine isAncestor_eq_false_of_le ?_
      rw [hlb]
      simp
theorem pairwise_forest_children : ∀ (f : Forest) (p : FPath), wfF f = true →
    nodupB f.names = true →
    List.Pairwise (fun a b => isAncestor a b = false) (forest_children p f)
  | .nil, p, _, _ => by
    rw [forest_children_nil]
    exact List.Pairwise.nil
  | .cons n t rest, p, hwf, hnd => by
    rw [wfF, Bool.and_eq_true] at hwf
    obtain ⟨hwt, hwrest⟩ := hwf
    rw [Forest.names] at hnd
    obtain ⟨hnmem, hndrest⟩ := nodupB_not_contains hnd
    rw [forest_children_cons, List.pairwise_append]
    refine ⟨pairwise_get_children t (p ++ [n]) hwt,
      pairwise_forest_children rest p hwrest hndrest, ?_⟩
    intro a ha b hb
    obtain ⟨x, c, rfl⟩ := mem_get_children t (p ++ [n]) a ha
    obtain ⟨n', x', c', hn', hb'⟩ := mem_forest_children rest p b hb
    cases hq : isAncestor ((p ++ [n]) ++ x :: c) b with
    | false => rfl
    | true =>
      rw [hb'] at hq
      have heqn : n = n' := by
        have h2 : (p ++ [n]) ++ x :: c = p ++ n :: x :: c := by simp
        rw [h2] at hq
        exact isAncestor_head_eq hq
      exact absurd (heqn ▸ hn') hnmem
end

theorem renameOrder_pairwise (p : FPath) (t : FSTree) (h : wfT t = true) :
    List.Pairwise (fun a b => isAncestor a b = false) (renameOrder p t) := by
  unfold renameOrder
  rw [List.pairwise_append]
  refine ⟨pairwise_get_children t p h, List.pairwise_singleton _ _, ?_⟩
  intro a ha b hb
  obtain rfl : b = p := by simpa using hb
  obtain ⟨x, c, rfl⟩ := mem_get_children t b a ha
  refine isAncestor_eq_false_of_le ?_
  simp

/-- C1: for a well-formed directory tree (distinct sibling directory
names), the processing order of `rename_file` for a recursive directory
input — the `get_children` traversal list followed by the directory itself
— renames the input directory last and processes every descendant strictly
before any of its ancestors. -/
theorem rename_order_deepest_first (p : FPath) (t : FSTree) (h : wfT t = true) :
    (renameOrder p t).getLast? = some p ∧
    ∀ i j : Fin (renameOrder p t).length,
      isAncestor ((renameOrder p t).get i) ((renameOrder p t).get j) = true →
        j.val < i.val := by
  constructor
  · unfold renameOrder
    exact List.getLast?_concat _
  · intro i j hanc
    have hpw := renameOrder_pairwise p t h
    rw [List.pairwise_iff_get] at hpw
    rcases lt_trichotomy i j with hlt | heq | hgt
    · rw [hpw i j hlt] at hanc
      cases hanc
    · rw [heq, isAncestor_irrefl] at hanc
      cases hanc
    · exact hgt

/-- A concrete three-level tree for the C1 witness. -/
def treeC1 : FSTree :=
  .dir ["top f".data]
    (.cons "Parent Dir".data
      (.dir ["Child File.txt".data]
        (.cons "Sub Dir".data (.dir ["deep file".data] .nil) .nil))
      .nil)

/-- Witness for `rename_order_deepest_first` on `treeC1`. -/
theorem rename_order_deepest_first_witness :
    wfT treeC1 = true ∧
    ((renameOrder ["root".data] treeC1).getLast? = some ["root".data] ∧
     ∀ i j : Fin (renameOrder ["root".data] treeC1).length,
       isAncestor ((renameOrder ["root".data] treeC1).get i)
         ((renameOrder ["root".data] treeC1).get j) = true → j.val < i.val) :=
  ⟨by rfl, rename_order_deepest_first ["root".data] treeC1 (by rfl)⟩

end Frnm

